import Mathlib

/-!
# Rilord/ringbuf: the ring buffers of `ringbuf_aligned.go` and `ringbuf_non_aligned.go`

A shallow embedding of `RingBuffer[T]` and of its operations `NewRingBuffer`,
`Write`, `Read`, `ReadVec`, `isFull` and `isEmpty`, executed one call at a time,
of the same operations of `RingBufferWithoutAlign[T]`, and of two calls of `Write`
whose steps interleave (`WriteCall`, `Race`), followed by theorems about them.

* `uint32` fields are natural numbers below `2 ^ 32`; every `uint32` operation
  is written with an explicit reduction modulo `2 ^ 32` (`add32`, `sub32`).
* `data []*T` is a `List (Option T)`: `none` is the nil pointer, `some v` a
  pointer to a cell holding `v`.
* A Go run-time panic (index out of range, `make` with a negative length) is
  the result `Outcome.panic`.
* The loop of `ReadVec` is run with a fuel of `len(data) + 1` iterations;
  `Outcome.outOfFuel` is the result of a loop that would need more, and
  `ReadVec_ne_outOfFuel` shows that no state and no buffer produce it.
* The parameter `capacity int` is an integer of any size, and `make` returns for
  every non-negative length. The run-time refuses a length above a limit that
  depends on the platform (`make` panics there too) and can run out of memory;
  neither is modelled, so for such a capacity the constructors below describe a
  buffer that the program does not get to build.
-/

namespace RingBuf

/-- Result of running a piece of the program. -/
inductive Outcome (α : Type) where
  | done (a : α)
  | panic
  | outOfFuel
  deriving DecidableEq, Repr

/-- Conversion `uint32(x)` of a Go `int`. -/
def uint32 (x : Int) : Nat := (x % 4294967296).toNat

/-- Addition on `uint32`: `a + b` modulo `2 ^ 32`. -/
def add32 (a b : Nat) : Nat := (a + b) % 4294967296

/-- Subtraction on `uint32`: `a - b` modulo `2 ^ 32`. -/
def sub32 (a b : Nat) : Nat := ((4294967296 - b % 4294967296) + a) % 4294967296

/-- The struct `RingBuffer[T]`; the two padding fields carry no data. -/
structure RingBuffer (T : Type) where
  cap : Nat
  mask : Nat
  write : Nat
  read : Nat
  data : List (Option T)
  deriving DecidableEq, Repr

variable {T : Type}

/-- Constructor `NewRingBuffer(capacity)`: `make([]*T, capacity)` panics on a negative
length. Its panic on a length above the run-time's limit is not modelled: the
definition stands for the constructor at the capacities the run-time can allocate. -/
def NewRingBuffer (capacity : Int) : Outcome (RingBuffer T) :=
  if capacity < 0 then .panic
  else .done
    { cap := uint32 capacity
      mask := uint32 (capacity - 1)
      write := 0
      read := 0
      data := List.replicate capacity.toNat none }

/-- Method `r.isFull(widx, ridx)`: `widx-ridx >= r.cap-1` on `uint32`. -/
def RingBuffer.isFull (r : RingBuffer T) (widx ridx : Nat) : Bool :=
  decide (sub32 widx ridx ≥ sub32 r.cap 1)

/-- Method `r.isEmpty(widx, ridx)`: `widx == ridx || widx < ridx`. -/
def RingBuffer.isEmpty (_r : RingBuffer T) (widx ridx : Nat) : Bool :=
  decide (widx = ridx) || decide (widx < ridx)

/-- Function `atomic.CompareAndSwapUint32(addr, old, new)` on the cell holding `cell`:
the new content of the cell and whether the swap happened. -/
def CompareAndSwapUint32 (cell old new : Nat) : Nat × Bool :=
  if cell = old then (new, true) else (cell, false)

/-- Method `r.Write(value)`: the buffer after the call and the returned `ok`. -/
def RingBuffer.Write (r : RingBuffer T) (value : T) : Outcome (RingBuffer T × Bool) :=
  let oldWrite := r.write
  let oldRead := r.read
  if r.isFull oldWrite oldRead then .done (r, false)
  else
    let newWrite := add32 oldWrite 1
    match r.data[newWrite &&& r.mask]? with
    | none => .panic
    | some (some _) => .done (r, false)
    | some none =>
      match CompareAndSwapUint32 r.write oldWrite newWrite with
      | (_, false) => .done (r, false)
      | (w, true) =>
        .done ({ r with write := w, data := r.data.set (newWrite &&& r.mask) (some value) }, true)

/-- Method `r.Read()`: the buffer after the call, the returned `val` and `ok`.
The zero value of `T` is `default`. -/
def RingBuffer.Read [Inhabited T] (r : RingBuffer T) : Outcome (RingBuffer T × T × Bool) :=
  let oldWrite := r.write
  let oldRead := r.read
  if r.isEmpty oldWrite oldRead then .done (r, default, false)
  else
    let newRead := add32 oldRead 1
    match r.data[newRead &&& r.mask]? with
    | none => .panic
    | some none => .done (r, default, false)
    | some (some v) =>
      match CompareAndSwapUint32 r.read oldRead newRead with
      | (_, false) => .done (r, default, false)
      | (rd, true) => .done ({ r with read := rd }, v, true)

/-- The loop `for ; cur <= oldWrite; cur++ { ... }` of `ReadVec`, at most `fuel`
tests of its condition: the final `cur`, slots and `buf`. -/
def ReadVecLoop (mask oldWrite oldRead : Nat) :
    Nat → Nat → List (Option T) → List T → Outcome (Nat × List (Option T) × List T)
  | 0, _, _, _ => .outOfFuel
  | fuel + 1, cur, data, buf =>
    if cur ≤ oldWrite then
      match data[cur &&& mask]? with
      | none => .panic
      | some none => .done (cur, data, buf)
      | some (some v) =>
        if sub32 (sub32 cur oldRead) 1 < buf.length then
          ReadVecLoop mask oldWrite oldRead fuel (add32 cur 1)
            (data.set (cur &&& mask) none) (buf.set (sub32 (sub32 cur oldRead) 1) v)
        else .panic
    else .done (cur, data, buf)

/-- Method `r.ReadVec(buf)`: the buffer after the call, the content of `buf` after the
call (the slice shares its array with the caller) and the returned count. -/
def RingBuffer.ReadVec (r : RingBuffer T) (buf : List T) :
    Outcome (RingBuffer T × List T × Nat) :=
  let oldWrite := r.write
  let oldRead := r.read
  if r.isEmpty oldWrite oldRead then .done (r, buf, 0)
  else
    match ReadVecLoop r.mask oldWrite oldRead (r.data.length + 1) (add32 oldRead 1) r.data buf with
    | .panic => .panic
    | .outOfFuel => .outOfFuel
    | .done (cur, data, buf1) =>
      .done ({ r with read := sub32 cur 1, data := data }, buf1, sub32 (sub32 cur oldRead) 1)

/-- One call made on a buffer. -/
inductive Op (T : Type) where
  | write (value : T)
  | read
  | readVec (buf : List T)
  deriving DecidableEq, Repr

/-- What one call returned: `Write`'s argument and `ok`; `Read`'s `val` and `ok`;
the content of `ReadVec`'s `buf` after the call and its count. -/
inductive Ret (T : Type) where
  | write (value : T) (ok : Bool)
  | read (val : T) (ok : Bool)
  | readVec (buf : List T) (n : Nat)
  deriving DecidableEq, Repr

/-- Sequencing: a panic or an exhausted fuel ends the run. -/
def Outcome.bind {α β : Type} (o : Outcome α) (f : α → Outcome β) : Outcome β :=
  match o with
  | .done a => f a
  | .panic => .panic
  | .outOfFuel => .outOfFuel

/-- One call: the buffer after it and what it returned. -/
def step [Inhabited T] (r : RingBuffer T) : Op T → Outcome (RingBuffer T × Ret T)
  | .write v => (r.Write v).bind fun p => .done (p.1, .write v p.2)
  | .read => r.Read.bind fun p => .done (p.1, .read p.2.1 p.2.2)
  | .readVec buf => (r.ReadVec buf).bind fun p => .done (p.1, .readVec p.2.1 p.2.2)

/-- Calls made one after another on `r`: the final buffer and what each call returned. -/
def run [Inhabited T] (r : RingBuffer T) : List (Op T) → Outcome (RingBuffer T × List (Ret T))
  | [] => .done (r, [])
  | op :: ops =>
    (step r op).bind fun p => (run p.1 ops).bind fun q => .done (q.1, p.2 :: q.2)

/-- Calls made one after another on a buffer fresh from `NewRingBuffer(capacity)`. -/
def runFresh [Inhabited T] (capacity : Int) (ops : List (Op T)) :
    Outcome (RingBuffer T × List (Ret T)) :=
  (NewRingBuffer capacity).bind fun r => run r ops

/-- The values whose `Write` returned true, in call order. -/
def written : List (Ret T) → List T
  | [] => []
  | .write v true :: es => v :: written es
  | _ :: es => written es

/-- The values handed out, in call order: the value of each `Read` that returned
`ok = true` and the first `n` entries of `buf` of each `ReadVec` that returned `n`. -/
def handed : List (Ret T) → List T
  | [] => []
  | .read v true :: es => v :: handed es
  | .readVec buf n :: es => buf.take n ++ handed es
  | _ :: es => handed es

/-- The `ok` of each `Write`, in call order. -/
def writeOks : List (Ret T) → List Bool
  | [] => []
  | .write _ ok :: es => ok :: writeOks es
  | _ :: es => writeOks es


/-- The struct `RingBufferWithoutAlign[T]` of `ringbuf_non_aligned.go`. -/
structure RingBufferWithoutAlign (T : Type) where
  cap : Nat
  mask : Nat
  write : Nat
  read : Nat
  data : List (Option T)
  deriving DecidableEq, Repr

/-- Constructor `NewRingBufferWithoutAlign(capacity)`, the same code as `NewRingBuffer`,
modelled the same way. -/
def NewRingBufferWithoutAlign (capacity : Int) : Outcome (RingBufferWithoutAlign T) :=
  if capacity < 0 then .panic
  else .done
    { cap := uint32 capacity
      mask := uint32 (capacity - 1)
      write := 0
      read := 0
      data := List.replicate capacity.toNat none }

/-- The four integer fields hold `uint32` values. -/
def RingBuffer.InRange (r : RingBuffer T) : Prop :=
  r.cap < 2 ^ 32 ∧ r.mask < 2 ^ 32 ∧ r.write < 2 ^ 32 ∧ r.read < 2 ^ 32

/-- The count `n` of the postcondition of `ReadVec`, written from its description
and not from the loop: the number of consecutive occupied slots met when scanning
the cursors `cur, cur + 1, ..., cur + k - 1` (slot index = cursor `& mask`),
stopping at the first slot that is not occupied. -/
def occupiedRun (data : List (Option T)) (mask : Nat) : Nat → Nat → Nat
  | _, 0 => 0
  | cur, k + 1 =>
    match data[cur &&& mask]? with
    | some (some _) => occupiedRun data mask (cur + 1) k + 1
    | _ => 0

/-- Invariant of the states reached by calls made one after another on a buffer
with `c` slots and mask `2 ^ j - 1`; `p` lists the values written and not yet
handed out, oldest first: they sit in the slots of the cursors
`read + 1, ..., write`. -/
structure Inv (c j : Nat) (r : RingBuffer T) (p : List T) : Prop where
  hj : j ≤ 32
  hjc : 2 ^ j ≤ c
  hmask : r.mask = 2 ^ j - 1
  hcap : sub32 r.cap 1 = r.mask
  hlen : r.data.length = c
  hrw : r.read ≤ r.write
  hw : r.write < 2 ^ 32
  hocc : r.write - r.read ≤ r.mask
  hp : p.length = r.write - r.read
  hslots : ∀ (i : Nat) (x : T), p[i]? = some x →
    r.data[(r.read + 1 + i) &&& r.mask]? = some (some x)

/-- Invariant of the states reached by `Write`s alone on a fresh buffer with `c`
slots and mask `2 ^ j - 1`: nothing was read, and the slots above the write
cursor are empty. -/
structure WritesInv (c j : Nat) (r : RingBuffer T) : Prop where
  hj : j ≤ 32
  hjc : 2 ^ j ≤ c
  hmask : r.mask = 2 ^ j - 1
  hcap : sub32 r.cap 1 = r.mask
  hlen : r.data.length = c
  hread : r.read = 0
  hwm : r.write ≤ r.mask
  hempty : ∀ idx : Nat, r.write < idx → idx < c → r.data[idx]? = some none

/-- Invariant of the states reached by calls made one after another on a buffer fresh
from `NewRingBuffer`, whatever the capacity. The cursors are `uint32` values, and one
of three holds: the slot array has fewer than `2^32` entries; or the mask is below
`2^32 - 1` and no slot above it is occupied; or the mask is `2^32 - 1`, `cap - 1` is
`2^32 - 1` on `uint32`, and slot 0 is empty unless the write cursor has wrapped
around below the read cursor. -/
def RunInv (r : RingBuffer T) : Prop :=
  r.write < 2 ^ 32 ∧ r.read < 2 ^ 32 ∧
    (r.data.length < 2 ^ 32 ∨
      (r.mask < 2 ^ 32 - 1 ∧ ∀ (i : Nat) (v : T), r.mask < i → r.data[i]? ≠ some (some v)) ∨
      (r.mask = 2 ^ 32 - 1 ∧ sub32 r.cap 1 = 2 ^ 32 - 1 ∧
        ((∀ v : T, r.data[0]? ≠ some (some v)) ∨ r.write < r.read)))

/-! ### The operations of `ringbuf_non_aligned.go` -/

/-- Method `r.isFull(widx, ridx)` of `RingBufferWithoutAlign`: `widx-ridx >= r.cap-1`. -/
def RingBufferWithoutAlign.isFull (r : RingBufferWithoutAlign T) (widx ridx : Nat) : Bool :=
  decide (sub32 widx ridx ≥ sub32 r.cap 1)

/-- Method `r.isEmpty(widx, ridx)` of `RingBufferWithoutAlign`:
`widx == ridx || widx < ridx`. -/
def RingBufferWithoutAlign.isEmpty (_r : RingBufferWithoutAlign T) (widx ridx : Nat) : Bool :=
  decide (widx = ridx) || decide (widx < ridx)

/-- Method `r.Write(value)` of `RingBufferWithoutAlign`. -/
def RingBufferWithoutAlign.Write (r : RingBufferWithoutAlign T) (value : T) :
    Outcome (RingBufferWithoutAlign T × Bool) :=
  let oldWrite := r.write
  let oldRead := r.read
  if r.isFull oldWrite oldRead then .done (r, false)
  else
    let newWrite := add32 oldWrite 1
    match r.data[newWrite &&& r.mask]? with
    | none => .panic
    | some (some _) => .done (r, false)
    | some none =>
      match CompareAndSwapUint32 r.write oldWrite newWrite with
      | (_, false) => .done (r, false)
      | (w, true) =>
        .done ({ r with write := w, data := r.data.set (newWrite &&& r.mask) (some value) }, true)

/-- Method `r.Read()` of `RingBufferWithoutAlign`. -/
def RingBufferWithoutAlign.Read [Inhabited T] (r : RingBufferWithoutAlign T) :
    Outcome (RingBufferWithoutAlign T × T × Bool) :=
  let oldWrite := r.write
  let oldRead := r.read
  if r.isEmpty oldWrite oldRead then .done (r, default, false)
  else
    let newRead := add32 oldRead 1
    match r.data[newRead &&& r.mask]? with
    | none => .panic
    | some none => .done (r, default, false)
    | some (some v) =>
      match CompareAndSwapUint32 r.read oldRead newRead with
      | (_, false) => .done (r, default, false)
      | (rd, true) => .done ({ r with read := rd }, v, true)

/-- The loop of `ReadVec` of `RingBufferWithoutAlign`, at most `fuel` tests of its
condition. -/
def ReadVecLoopWithoutAlign (mask oldWrite oldRead : Nat) :
    Nat → Nat → List (Option T) → List T → Outcome (Nat × List (Option T) × List T)
  | 0, _, _, _ => .outOfFuel
  | fuel + 1, cur, data, buf =>
    if cur ≤ oldWrite then
      match data[cur &&& mask]? with
      | none => .panic
      | some none => .done (cur, data, buf)
      | some (some v) =>
        if sub32 (sub32 cur oldRead) 1 < buf.length then
          ReadVecLoopWithoutAlign mask oldWrite oldRead fuel (add32 cur 1)
            (data.set (cur &&& mask) none) (buf.set (sub32 (sub32 cur oldRead) 1) v)
        else .panic
    else .done (cur, data, buf)

/-- Method `r.ReadVec(buf)` of `RingBufferWithoutAlign`. -/
def RingBufferWithoutAlign.ReadVec (r : RingBufferWithoutAlign T) (buf : List T) :
    Outcome (RingBufferWithoutAlign T × List T × Nat) :=
  let oldWrite := r.write
  let oldRead := r.read
  if r.isEmpty oldWrite oldRead then .done (r, buf, 0)
  else
    match ReadVecLoopWithoutAlign r.mask oldWrite oldRead (r.data.length + 1)
        (add32 oldRead 1) r.data buf with
    | .panic => .panic
    | .outOfFuel => .outOfFuel
    | .done (cur, data, buf1) =>
      .done ({ r with read := sub32 cur 1, data := data }, buf1, sub32 (sub32 cur oldRead) 1)

/-- One call on a `RingBufferWithoutAlign`. -/
def stepWithoutAlign [Inhabited T] (r : RingBufferWithoutAlign T) :
    Op T → Outcome (RingBufferWithoutAlign T × Ret T)
  | .write v => (r.Write v).bind fun p => .done (p.1, .write v p.2)
  | .read => r.Read.bind fun p => .done (p.1, .read p.2.1 p.2.2)
  | .readVec buf => (r.ReadVec buf).bind fun p => .done (p.1, .readVec p.2.1 p.2.2)

/-- Calls made one after another on a `RingBufferWithoutAlign`. -/
def runWithoutAlign [Inhabited T] (r : RingBufferWithoutAlign T) :
    List (Op T) → Outcome (RingBufferWithoutAlign T × List (Ret T))
  | [] => .done (r, [])
  | op :: ops =>
    (stepWithoutAlign r op).bind fun p =>
      (runWithoutAlign p.1 ops).bind fun q => .done (q.1, p.2 :: q.2)

/-- Calls made one after another on a buffer fresh from
`NewRingBufferWithoutAlign(capacity)`. -/
def runFreshWithoutAlign [Inhabited T] (capacity : Int) (ops : List (Op T)) :
    Outcome (RingBufferWithoutAlign T × List (Ret T)) :=
  (NewRingBufferWithoutAlign capacity).bind fun r => runWithoutAlign r ops

/-- The fields of a `RingBuffer` as a `RingBufferWithoutAlign`: the same `cap`,
`mask`, cursors and slots, without the padding. -/
def RingBuffer.unpad (r : RingBuffer T) : RingBufferWithoutAlign T :=
  { cap := r.cap, mask := r.mask, write := r.write, read := r.read, data := r.data }

/-! ### Two `Write` calls running concurrently

Each step of a call makes one access to the shared memory: the atomic load of a
cursor, the read of the target slot, the compare-and-swap, the store to the slot.
The steps of the two calls interleave in the order given by a schedule. -/

/-- Where a call of `Write` stands, with the locals it holds. -/
inductive WriteCall where
  | start
  | loadedWrite (oldWrite : Nat)
  | loadedRead (oldWrite oldRead : Nat)
  | sawEmpty (oldWrite : Nat)
  | swapped (newWrite : Nat)
  | returned (ok : Bool)
  | panicked
  deriving DecidableEq, Repr

/-- One step of a call of `Write(value)` on the shared buffer `r`: the load of
`r.write`; the load of `r.read`; the test `isFull` with the read of the slot
`data[newWrite & mask]` and the test `elem != nil`; the compare-and-swap of
`r.write`; the store `data[newWrite & mask] = &value` and `return true`. -/
def WriteCall.step (r : RingBuffer T) (value : T) : WriteCall → RingBuffer T × WriteCall
  | .start => (r, .loadedWrite r.write)
  | .loadedWrite oldWrite => (r, .loadedRead oldWrite r.read)
  | .loadedRead oldWrite oldRead =>
    if r.isFull oldWrite oldRead then (r, .returned false)
    else
      match r.data[add32 oldWrite 1 &&& r.mask]? with
      | none => (r, .panicked)
      | some (some _) => (r, .returned false)
      | some none => (r, .sawEmpty oldWrite)
  | .sawEmpty oldWrite =>
    match CompareAndSwapUint32 r.write oldWrite (add32 oldWrite 1) with
    | (_, false) => (r, .returned false)
    | (w, true) => ({ r with write := w }, .swapped (add32 oldWrite 1))
  | .swapped newWrite =>
    ({ r with data := r.data.set (newWrite &&& r.mask) (some value) }, .returned true)
  | .returned ok => (r, .returned ok)
  | .panicked => (r, .panicked)

/-- A call of `Write` run alone for `n` steps. -/
def WriteCall.steps (value : T) : Nat → RingBuffer T × WriteCall → RingBuffer T × WriteCall
  | 0, p => p
  | n + 1, p => WriteCall.steps value n (p.2.step p.1 value)

/-- The number of steps a call still has to make, at most. -/
def WriteCall.todo : WriteCall → Nat
  | .start => 5
  | .loadedWrite _ => 4
  | .loadedRead _ _ => 3
  | .sawEmpty _ => 2
  | .swapped _ => 1
  | .returned _ => 0
  | .panicked => 0

/-- Whether the compare-and-swap of the call succeeded. -/
def WriteCall.won : WriteCall → Bool
  | .swapped _ => true
  | .returned true => true
  | _ => false

/-- The shared buffer and two calls of `Write` in progress on it. -/
structure Race (T : Type) where
  r : RingBuffer T
  a : WriteCall
  b : WriteCall
  deriving DecidableEq, Repr

/-- One step of the race: of the call `a` (writing `va`) when `first`, else of the
call `b` (writing `vb`). -/
def Race.step (va vb : T) (s : Race T) (first : Bool) : Race T :=
  if first then ⟨(s.a.step s.r va).1, (s.a.step s.r va).2, s.b⟩
  else ⟨(s.b.step s.r vb).1, s.a, (s.b.step s.r vb).2⟩

/-- The race run along a schedule. -/
def Race.run (va vb : T) (s : Race T) (sched : List Bool) : Race T :=
  sched.foldl (Race.step va vb) s

/-- A call that loaded the write cursor of `r0` is at one of these places. -/
def CallOk (r0 : RingBuffer T) (c : WriteCall) : Prop :=
  c = .loadedWrite r0.write ∨ c = .loadedRead r0.write r0.read ∨ c = .sawEmpty r0.write ∨
    c = .swapped (add32 r0.write 1) ∨ c = .returned true ∨ c = .returned false

/-- Invariant of a race between two calls that both loaded the write cursor of `r0`,
on a buffer that was not full and whose target slot was empty: at most one
compare-and-swap succeeds, and a call returns false only once the other has won. -/
structure RaceInv (r0 : RingBuffer T) (va vb : T) (s : Race T) : Prop where
  hcap : s.r.cap = r0.cap
  hmask : s.r.mask = r0.mask
  hread : s.r.read = r0.read
  hlen : s.r.data.length = r0.data.length
  oka : CallOk r0 s.a
  okb : CallOk r0 s.b
  one : ¬ (s.a.won = true ∧ s.b.won = true)
  wnone : s.a.won = false → s.b.won = false → s.r.write = r0.write
  wsome : (s.a.won = true ∨ s.b.won = true) → s.r.write = add32 r0.write 1
  dnone : s.a ≠ .returned true → s.b ≠ .returned true → s.r.data = r0.data
  da : s.a = .returned true →
    s.r.data = r0.data.set (add32 r0.write 1 &&& r0.mask) (some va)
  db : s.b = .returned true →
    s.r.data = r0.data.set (add32 r0.write 1 &&& r0.mask) (some vb)
  la : s.a = .returned false → s.b.won = true
  lb : s.b = .returned false → s.a.won = true

/-! ## Arithmetic on `uint32` -/

theorem sub32_of_le {a b : Nat} (ha : a < 2 ^ 32) (hb : b ≤ a) : sub32 a b = a - b := by
  unfold sub32; omega

theorem add32_of_lt {a b : Nat} (h : a + b < 2 ^ 32) : add32 a b = a + b := by
  unfold add32; omega

theorem sub32_lt (a b : Nat) : sub32 a b < 2 ^ 32 := by
  unfold sub32; omega

/-! ## Single calls -/

/-- Unfolding `run` at a call that returned. -/
theorem run_cons_done [Inhabited T] {r r1 r2 : RingBuffer T} {op : Op T} {ops : List (Op T)}
    {e : Ret T} {es : List (Ret T)} (h1 : step r op = .done (r1, e))
    (h2 : run r1 ops = .done (r2, es)) : run r (op :: ops) = .done (r2, e :: es) := by
  simp [run, h1, h2, Outcome.bind]

theorem run_nil [Inhabited T] (r : RingBuffer T) : run r [] = .done (r, []) := rfl

theorem step_write_done [Inhabited T] {r r1 : RingBuffer T} {v : T} {ok : Bool}
    (h : r.Write v = .done (r1, ok)) : step r (.write v) = .done (r1, .write v ok) := by
  simp only [step, h, Outcome.bind]

theorem step_read_done [Inhabited T] {r r1 : RingBuffer T} {v : T} {ok : Bool}
    (h : r.Read = .done (r1, v, ok)) : step r .read = .done (r1, .read v ok) := by
  simp only [step, h, Outcome.bind]

theorem step_readVec_done [Inhabited T] {r r1 : RingBuffer T} {buf buf1 : List T} {n : Nat}
    (h : r.ReadVec buf = .done (r1, buf1, n)) :
    step r (.readVec buf) = .done (r1, .readVec buf1 n) := by
  simp only [step, h, Outcome.bind]

theorem runFresh_done [Inhabited T] {c : Int} {r0 : RingBuffer T} (ops : List (Op T))
    (h : NewRingBuffer c = .done r0) : runFresh c ops = run r0 ops := by
  simp only [runFresh, h, Outcome.bind]

theorem ReadVec_of_loop {r : RingBuffer T} {buf buf1 : List T} {cur : Nat}
    {data : List (Option T)} (hne : r.isEmpty r.write r.read = false)
    (hloop : ReadVecLoop r.mask r.write r.read (r.data.length + 1) (add32 r.read 1) r.data buf
      = .done (cur, data, buf1)) :
    r.ReadVec buf
      = .done ({ r with read := sub32 cur 1, data := data }, buf1, sub32 (sub32 cur r.read) 1) := by
  unfold RingBuffer.ReadVec
  simp only [hne, hloop, Bool.false_eq_true, if_false]

theorem ReadVec_of_empty {r : RingBuffer T} (buf : List T)
    (he : r.isEmpty r.write r.read = true) : r.ReadVec buf = .done (r, buf, 0) := by
  unfold RingBuffer.ReadVec
  simp only [he, if_true]

/-- C2: on a buffer made by `NewRingBuffer(4)` (mask 3), `Write(A)`, `Write(B)`,
`Write(C)` return true, the next `Write(D)` returns false, `ReadVec` into a
buffer of length 3 returns 3 and leaves `buf = [A, B, C]`, and a following
`Write(D)` returns true. -/
theorem C2_worked_scenario [Inhabited T] (A B C D x y z : T) :
    (NewRingBuffer 4 : Outcome (RingBuffer T))
        = .done ⟨4, 3, 0, 0, [none, none, none, none]⟩ ∧
      runFresh 4 [.write A, .write B, .write C, .write D, .readVec [x, y, z], .write D]
        = .done (⟨4, 3, 4, 3, [some D, none, none, none]⟩,
            [.write A true, .write B true, .write C true, .write D false,
             .readVec [A, B, C] 3, .write D true]) := by
  have h0 : (NewRingBuffer 4 : Outcome (RingBuffer T))
      = .done ⟨4, 3, 0, 0, [none, none, none, none]⟩ := by
    simp [NewRingBuffer, uint32]
  refine ⟨h0, ?_⟩
  have h23 : (2 &&& 3 : Nat) = 2 := by decide
  have h43 : (4 &&& 3 : Nat) = 0 := by decide
  have s1 : (⟨4, 3, 0, 0, [none, none, none, none]⟩ : RingBuffer T).Write A
      = .done (⟨4, 3, 1, 0, [none, some A, none, none]⟩, true) := by
    simp [RingBuffer.Write, RingBuffer.isFull, CompareAndSwapUint32, add32, sub32]
  have s2 : (⟨4, 3, 1, 0, [none, some A, none, none]⟩ : RingBuffer T).Write B
      = .done (⟨4, 3, 2, 0, [none, some A, some B, none]⟩, true) := by
    simp [RingBuffer.Write, RingBuffer.isFull, CompareAndSwapUint32, add32, sub32, h23]
  have s3 : (⟨4, 3, 2, 0, [none, some A, some B, none]⟩ : RingBuffer T).Write C
      = .done (⟨4, 3, 3, 0, [none, some A, some B, some C]⟩, true) := by
    simp [RingBuffer.Write, RingBuffer.isFull, CompareAndSwapUint32, add32, sub32]
  have s4 : (⟨4, 3, 3, 0, [none, some A, some B, some C]⟩ : RingBuffer T).Write D
      = .done (⟨4, 3, 3, 0, [none, some A, some B, some C]⟩, false) := by
    simp [RingBuffer.Write, RingBuffer.isFull, sub32]
  have hl : ReadVecLoop 3 3 0 5 (add32 0 1) [none, some A, some B, some C] [x, y, z]
      = .done (4, [none, none, none, none], [A, B, C]) := by
    simp [ReadVecLoop, add32, sub32, h23]
  have s5 : (⟨4, 3, 3, 0, [none, some A, some B, some C]⟩ : RingBuffer T).ReadVec [x, y, z]
      = .done (⟨4, 3, 3, 3, [none, none, none, none]⟩, [A, B, C], 3) := by
    have h := ReadVec_of_loop (r := ⟨4, 3, 3, 0, [none, some A, some B, some C]⟩)
      (by simp [RingBuffer.isEmpty]) hl
    simpa [sub32] using h
  have s6 : (⟨4, 3, 3, 3, [none, none, none, none]⟩ : RingBuffer T).Write D
      = .done (⟨4, 3, 4, 3, [some D, none, none, none]⟩, true) := by
    simp [RingBuffer.Write, RingBuffer.isFull, CompareAndSwapUint32, add32, sub32, h43]
  rw [runFresh_done _ h0]
  exact run_cons_done (step_write_done s1) (run_cons_done (step_write_done s2)
    (run_cons_done (step_write_done s3) (run_cons_done (step_write_done s4)
    (run_cons_done (step_readVec_done s5) (run_cons_done (step_write_done s6) (run_nil _))))))

/-- C3: in a state with `mask = cap - 1`, `cap` slots and `cap >= 1`, `Write`
returns (it does not panic), and it returns false exactly when the buffer is
full (`write - read >= cap - 1` on `uint32`) or the slot at `(write + 1) & mask`
is occupied; in particular it returns false when `write - read == cap - 1`. -/
theorem C3_write_false_iff (r : RingBuffer T) (value : T) (hr : r.InRange)
    (hmask : r.mask = r.cap - 1) (hlen : r.data.length = r.cap) (hcap : 1 ≤ r.cap) :
    ∃ r1 ok, r.Write value = .done (r1, ok) ∧
      (ok = false ↔ (r.cap - 1 ≤ sub32 r.write r.read ∨
        ∃ x, r.data[add32 r.write 1 &&& r.mask]? = some (some x))) ∧
      (sub32 r.write r.read = r.cap - 1 → ok = false) := by
  obtain ⟨hc, -, -, -⟩ := hr
  have hs : sub32 r.cap 1 = r.cap - 1 := sub32_of_le hc hcap
  have hidx : add32 r.write 1 &&& r.mask < r.data.length := by
    have := @Nat.and_le_right (add32 r.write 1) r.mask
    omega
  by_cases hfull : r.cap - 1 ≤ sub32 r.write r.read
  · refine ⟨r, false, ?_, by simp [hfull], fun _ => rfl⟩
    simp [RingBuffer.Write, RingBuffer.isFull, hs, hfull]
  · have hne : ¬ sub32 r.write r.read = r.cap - 1 := by omega
    cases hslot : r.data[add32 r.write 1 &&& r.mask]? with
    | none => simp [List.getElem?_eq_none_iff] at hslot; omega
    | some o =>
      cases o with
      | some x =>
        refine ⟨r, false, ?_, by simp, fun _ => rfl⟩
        simp [RingBuffer.Write, RingBuffer.isFull, hs, hfull, hslot]
      | none =>
        refine ⟨{ r with write := add32 r.write 1,
                         data := r.data.set (add32 r.write 1 &&& r.mask) (some value) },
          true, ?_, by simp [hfull], fun h => absurd h hne⟩
        simp [RingBuffer.Write, RingBuffer.isFull, hs, hfull, hslot, CompareAndSwapUint32]

/-- Witness of C3: a full buffer of capacity 4. -/
theorem C3_write_false_iff_witness :
    ∃ r1 ok, (⟨4, 3, 3, 0, [none, some 1, some 2, some 3]⟩ : RingBuffer Nat).Write 9
        = .done (r1, ok) ∧
      (ok = false ↔ (4 - 1 ≤ sub32 3 0 ∨
        ∃ x, [none, some 1, some 2, some 3][add32 3 1 &&& 3]? = some (some x))) ∧
      (sub32 3 0 = 4 - 1 → ok = false) :=
  C3_write_false_iff ⟨4, 3, 3, 0, [none, some 1, some 2, some 3]⟩ 9
    ⟨by norm_num, by norm_num, by norm_num, by norm_num⟩ (by decide) (by decide) (by decide)


/-- C8: in a state with `mask = cap - 1`, `cap` slots and `cap >= 1`, `Read`
returns (it does not panic); it returns `ok = true` exactly when `read < write`
and the slot at `(read + 1) & mask` is occupied; then the value returned is the
value of that slot, the read cursor is `read + 1`, and the write cursor, `cap`,
`mask` and every slot are unchanged, the consumed slot staying occupied. -/
theorem C8_read_contract [Inhabited T] (r : RingBuffer T) (hr : r.InRange)
    (hmask : r.mask = r.cap - 1) (hlen : r.data.length = r.cap) (hcap : 1 ≤ r.cap) :
    ∃ r1 v ok, r.Read = .done (r1, v, ok) ∧
      (ok = true ↔
        (r.read < r.write ∧ ∃ x, r.data[(r.read + 1) &&& r.mask]? = some (some x))) ∧
      (ok = true →
        r.data[(r.read + 1) &&& r.mask]? = some (some v) ∧ r1.read = r.read + 1 ∧
        r1.write = r.write ∧ r1.cap = r.cap ∧ r1.mask = r.mask ∧ r1.data = r.data ∧
        r1.data[(r.read + 1) &&& r.mask]? = some (some v)) := by
  obtain ⟨-, -, hw, -⟩ := hr
  by_cases hlt : r.read < r.write
  · have hadd : add32 r.read 1 = r.read + 1 := add32_of_lt (by omega)
    have hne : r.isEmpty r.write r.read = false := by
      simp [RingBuffer.isEmpty]; omega
    have hidx : (r.read + 1) &&& r.mask < r.data.length := by
      have := @Nat.and_le_right (r.read + 1) r.mask
      omega
    cases hslot : r.data[(r.read + 1) &&& r.mask]? with
    | none => simp [List.getElem?_eq_none_iff] at hslot; omega
    | some o =>
      cases o with
      | none =>
        refine ⟨r, default, false, ?_, by simp, by simp⟩
        simp [RingBuffer.Read, hne, hadd, hslot]
      | some x =>
        refine ⟨{ r with read := r.read + 1 }, x, true, ?_, by simp [hlt], ?_⟩
        · simp [RingBuffer.Read, hne, hadd, hslot, CompareAndSwapUint32]
        · intro _; simp [hslot]
  · have he : r.isEmpty r.write r.read = true := by
      simp [RingBuffer.isEmpty]; omega
    refine ⟨r, default, false, ?_, by simp [hlt], by simp⟩
    simp [RingBuffer.Read, he]

/-- Witness of C8: a buffer of capacity 4 holding one element. -/
theorem C8_read_contract_witness :
    ∃ r1 v ok, (⟨4, 3, 2, 1, [none, some 5, some 6, none]⟩ : RingBuffer Nat).Read
        = .done (r1, v, ok) ∧
      (ok = true ↔
        (1 < 2 ∧ ∃ x, [none, some 5, some 6, none][(1 + 1) &&& 3]? = some (some x))) ∧
      (ok = true →
        [none, some 5, some 6, none][(1 + 1) &&& 3]? = some (some v) ∧ r1.read = 1 + 1 ∧
        r1.write = 2 ∧ r1.cap = 4 ∧ r1.mask = 3 ∧ r1.data = [none, some 5, some 6, none] ∧
        r1.data[(1 + 1) &&& 3]? = some (some v)) :=
  C8_read_contract ⟨4, 3, 2, 1, [none, some 5, some 6, none]⟩
    ⟨by decide, by decide, by decide, by decide⟩ (by decide) (by decide) (by decide)

/-- C9: whenever `Write(v)` returns true, the slot at `(write + 1) & mask` was
empty before the call and holds `v` after it, the write cursor is `write + 1` on
`uint32` (one higher when `write < 2^32 - 1`), and the read cursor, `cap`, `mask`,
the number of slots and every other slot are unchanged; so no slot that held a
value holds another one afterwards. This holds in every state, in particular
in those with `mask = cap - 1` and `cap >= 1` slots. -/
theorem C9_write_success_frame (r r1 : RingBuffer T) (value : T)
    (h : r.Write value = .done (r1, true)) :
    r.data[add32 r.write 1 &&& r.mask]? = some none ∧
      r1.data[add32 r.write 1 &&& r.mask]? = some (some value) ∧
      r1.write = add32 r.write 1 ∧ (r.write < 2 ^ 32 - 1 → r1.write = r.write + 1) ∧
      r1.read = r.read ∧ r1.cap = r.cap ∧ r1.mask = r.mask ∧
      r1.data.length = r.data.length ∧
      (∀ i : Nat, i ≠ add32 r.write 1 &&& r.mask → r1.data[i]? = r.data[i]?) ∧
      (∀ (i : Nat) (x : T), r.data[i]? = some (some x) → r1.data[i]? = some (some x)) := by
  unfold RingBuffer.Write at h
  simp only [CompareAndSwapUint32, if_true] at h
  split at h
  · simp at h
  · split at h
    · simp at h
    · simp at h
    · rename_i hslot
      simp only [Outcome.done.injEq, Prod.mk.injEq, and_true] at h
      subst h
      have hidx : add32 r.write 1 &&& r.mask < r.data.length := by
        by_contra hge
        rw [List.getElem?_eq_none (by omega)] at hslot
        simp at hslot
      refine ⟨hslot, ?_, rfl, ?_, rfl, rfl, rfl, ?_, ?_, ?_⟩
      · simp [List.getElem?_set, hidx]
      · intro hw
        exact add32_of_lt (by omega)
      · simp
      · intro i hi
        simp [List.getElem?_set, Ne.symm hi]
      · intro i x hx
        by_cases hi : add32 r.write 1 &&& r.mask = i
        · subst hi; rw [hslot] at hx; simp at hx
        · simpa [List.getElem?_set, hi] using hx

/-- Witness of C9: a `Write` on a buffer of capacity 4 holding one element. -/
theorem C9_write_success_frame_witness :
    [none, some 5, none, none][add32 1 1 &&& 3]? = some none ∧
      [none, some 5, some 9, none][add32 1 1 &&& 3]? = some (some 9) ∧
      2 = add32 1 1 ∧ (1 < 2 ^ 32 - 1 → 2 = 1 + 1) ∧
      0 = 0 ∧ 4 = 4 ∧ 3 = 3 ∧
      [none, some 5, some 9, none].length = [none, some 5, none, none].length ∧
      (∀ i : Nat, i ≠ add32 1 1 &&& 3 →
        [none, some 5, some 9, none][i]? = [none, some 5, none, none][i]?) ∧
      (∀ (i : Nat) (x : Nat), [none, some 5, none, none][i]? = some (some x) →
        [none, some 5, some 9, none][i]? = some (some x)) :=
  C9_write_success_frame ⟨4, 3, 1, 0, [none, some 5, none, none]⟩
    ⟨4, 3, 2, 0, [none, some 5, some 9, none]⟩ 9 (by decide)

/-! ## The loop of `ReadVec` -/

theorem mod_ne_of_lt {a b M : Nat} (hab : a < b) (hd : b - a < M) : a % M ≠ b % M := by
  intro h
  have hdvd : M ∣ b - a := (Nat.modEq_iff_dvd' hab.le).mp h
  have := Nat.le_of_dvd (by omega) hdvd
  omega

theorem land_ne_of_lt {a b j : Nat} (hab : a < b) (hd : b - a < 2 ^ j) :
    a &&& (2 ^ j - 1) ≠ b &&& (2 ^ j - 1) := by
  rw [Nat.and_pow_two_sub_one_eq_mod, Nat.and_pow_two_sub_one_eq_mod]
  exact mod_ne_of_lt hab hd

theorem land_lt_pow (x j : Nat) : x &&& (2 ^ j - 1) < 2 ^ j := by
  rw [Nat.and_pow_two_sub_one_eq_mod]
  exact Nat.mod_lt _ (Nat.pos_pow_of_pos j (by decide))

/-- The loop started at `cur` with `n` occupied slots ahead of it, followed by the
end of the range or by an empty slot, stops at `cur + n`, having copied the `n`
values to `buf` and emptied the `n` slots. -/
theorem ReadVecLoop_scan (j oldWrite oldRead : Nat) (hw : oldWrite < 2 ^ 32 - 1) :
    ∀ (n fuel cur : Nat) (data : List (Option T)) (buf : List T),
      n < fuel → oldRead < cur → cur + n ≤ oldWrite + 1 → n ≤ 2 ^ j →
      cur + n - oldRead - 1 ≤ buf.length →
      (∀ i, i < n → ∃ v, data[(cur + i) &&& (2 ^ j - 1)]? = some (some v)) →
      (cur + n ≤ oldWrite → data[(cur + n) &&& (2 ^ j - 1)]? = some none) →
      ∃ data1 buf1,
        ReadVecLoop (2 ^ j - 1) oldWrite oldRead fuel cur data buf = .done (cur + n, data1, buf1) ∧
        data1.length = data.length ∧ buf1.length = buf.length ∧
        (∀ i, i < n → ∃ v, data[(cur + i) &&& (2 ^ j - 1)]? = some (some v) ∧
          buf1[cur + i - oldRead - 1]? = some v) ∧
        (∀ i, i < n → data1[(cur + i) &&& (2 ^ j - 1)]? = some none) ∧
        (∀ idx : Nat, (∀ i, i < n → idx ≠ (cur + i) &&& (2 ^ j - 1)) → data1[idx]? = data[idx]?) ∧
        (∀ k : Nat, (k < cur - oldRead - 1 ∨ cur + n - oldRead - 1 ≤ k) → buf1[k]? = buf[k]?) := by
  intro n
  induction n with
  | zero =>
    intro fuel cur data buf hfuel hcur hn _ _ _ hstop
    obtain ⟨f, rfl⟩ : ∃ f, fuel = f + 1 := ⟨fuel - 1, by omega⟩
    refine ⟨data, buf, ?_, rfl, rfl, by intro i hi; omega, by intro i hi; omega,
      fun _ _ => rfl, fun _ _ => rfl⟩
    unfold ReadVecLoop
    by_cases hle : cur ≤ oldWrite
    · have hs := hstop (by omega)
      simp only [Nat.add_zero] at hs
      simp only [hle, if_true, hs, Nat.add_zero]
    · simp only [hle, if_false, Nat.add_zero]
  | succ n ih =>
    intro fuel cur data buf hfuel hcur hn hnj hbuf hocc hstop
    obtain ⟨f, rfl⟩ : ∃ f, fuel = f + 1 := ⟨fuel - 1, by omega⟩
    obtain ⟨v, hv⟩ := hocc 0 (by omega)
    simp only [Nat.add_zero] at hv
    have hle : cur ≤ oldWrite := by omega
    have hsub : sub32 (sub32 cur oldRead) 1 = cur - oldRead - 1 := by
      unfold sub32; omega
    have hadd : add32 cur 1 = cur + 1 := add32_of_lt (by omega)
    have hk0 : cur - oldRead - 1 < buf.length := by omega
    have hin : cur &&& (2 ^ j - 1) < data.length := by
      by_contra hge
      rw [List.getElem?_eq_none (by omega)] at hv
      simp at hv
    have hocc1 : ∀ i, i < n → ∃ v, (data.set (cur &&& (2 ^ j - 1)) none)[(cur + 1 + i)
        &&& (2 ^ j - 1)]? = some (some v) := by
      intro i hi
      obtain ⟨x, hx⟩ := hocc (i + 1) (by omega)
      refine ⟨x, ?_⟩
      have hne : cur &&& (2 ^ j - 1) ≠ (cur + 1 + i) &&& (2 ^ j - 1) :=
        land_ne_of_lt (by omega) (by omega)
      rw [List.getElem?_set, if_neg hne]
      rw [show cur + 1 + i = cur + (i + 1) by omega]
      exact hx
    have hstop1 : cur + 1 + n ≤ oldWrite →
        (data.set (cur &&& (2 ^ j - 1)) none)[(cur + 1 + n) &&& (2 ^ j - 1)]? = some none := by
      intro h
      rw [List.getElem?_set]
      by_cases he : cur &&& (2 ^ j - 1) = (cur + 1 + n) &&& (2 ^ j - 1)
      · rw [if_pos he, if_pos hin]
      · rw [if_neg he]
        have := hstop (by omega)
        rw [show cur + 1 + n = cur + (n + 1) by omega]
        exact this
    obtain ⟨data1, buf1, hrun, hlen1, hblen1, hval, hclr, hfr, hbfr⟩ :=
      ih f (cur + 1) (data.set (cur &&& (2 ^ j - 1)) none) (buf.set (cur - oldRead - 1) v)
        (by omega) (by omega) (by omega) (by omega) (by simp; omega) hocc1 hstop1
    refine ⟨data1, buf1, ?_, by simpa using hlen1, by simpa using hblen1, ?_, ?_, ?_, ?_⟩
    · unfold ReadVecLoop
      simp only [hle, if_true, hv, hsub, hk0, hadd]
      rw [hrun, show cur + 1 + n = cur + (n + 1) by omega]
    · intro i hi
      cases i with
      | zero =>
        refine ⟨v, by simpa using hv, ?_⟩
        rw [Nat.add_zero, hbfr (cur - oldRead - 1) (Or.inl (by omega))]
        simp [List.getElem?_set, hk0]
      | succ i =>
        obtain ⟨x, hx1, hx2⟩ := hval i (by omega)
        have hne : cur &&& (2 ^ j - 1) ≠ (cur + 1 + i) &&& (2 ^ j - 1) :=
          land_ne_of_lt (by omega) (by omega)
        rw [List.getElem?_set, if_neg hne] at hx1
        refine ⟨x, ?_, ?_⟩
        · rw [show cur + (i + 1) = cur + 1 + i by omega]; exact hx1
        · rw [show cur + (i + 1) - oldRead - 1 = cur + 1 + i - oldRead - 1 by omega]; exact hx2
    · intro i hi
      cases i with
      | zero =>
        by_cases hex : ∃ i, i < n ∧ cur &&& (2 ^ j - 1) = (cur + 1 + i) &&& (2 ^ j - 1)
        · obtain ⟨i, hi, he⟩ := hex
          rw [Nat.add_zero, he]
          exact hclr i hi
        · rw [Nat.add_zero, hfr _ (fun i hi he => hex ⟨i, hi, he⟩)]
          rw [List.getElem?_set, if_pos rfl, if_pos hin]
      | succ i =>
        rw [show cur + (i + 1) = cur + 1 + i by omega]
        exact hclr i (by omega)
    · intro idx hidx
      rw [hfr idx]
      · have hne : cur &&& (2 ^ j - 1) ≠ idx := by
          have := hidx 0 (by omega)
          simpa using this.symm
        rw [List.getElem?_set, if_neg hne]
      · intro i hi
        have := hidx (i + 1) (by omega)
        rwa [show cur + (i + 1) = cur + 1 + i by omega] at this
    · intro k hk
      rw [hbfr k (by omega)]
      have hne : cur - oldRead - 1 ≠ k := by omega
      rw [List.getElem?_set, if_neg hne]

/-- Call of `ReadVec` on a state with `n` occupied slots ahead of the read cursor, followed
by the write cursor or by an empty slot: it returns `n`, copies the `n` values to
the front of `buf`, empties the `n` slots and advances the read cursor by `n`. -/
theorem ReadVec_scan (r : RingBuffer T) (j : Nat) (hmask : r.mask = 2 ^ j - 1)
    (hlen : 2 ^ j ≤ r.data.length) (hrw : r.read < r.write) (hw : r.write < 2 ^ 32 - 1)
    (n : Nat) (hn : n ≤ r.write - r.read) (hnj : n ≤ 2 ^ j) (buf : List T)
    (hbuf : n ≤ buf.length)
    (hocc : ∀ i, i < n → ∃ v, r.data[(r.read + 1 + i) &&& r.mask]? = some (some v))
    (hstop : n < r.write - r.read → r.data[(r.read + 1 + n) &&& r.mask]? = some none) :
    ∃ r1 buf1, r.ReadVec buf = .done (r1, buf1, n) ∧
      r1.cap = r.cap ∧ r1.mask = r.mask ∧ r1.write = r.write ∧ r1.read = r.read + n ∧
      r1.data.length = r.data.length ∧ buf1.length = buf.length ∧
      (∀ i, i < n → ∃ v, r.data[(r.read + 1 + i) &&& r.mask]? = some (some v) ∧
        buf1[i]? = some v) ∧
      (∀ i, i < n → r1.data[(r.read + 1 + i) &&& r.mask]? = some none) ∧
      (∀ idx : Nat, (∀ i, i < n → idx ≠ (r.read + 1 + i) &&& r.mask) →
        r1.data[idx]? = r.data[idx]?) ∧
      (∀ k : Nat, n ≤ k → buf1[k]? = buf[k]?) := by
  rw [hmask] at hocc hstop ⊢
  obtain ⟨data1, buf1, hrun, hlen1, hblen1, hval, hclr, hfr, hbfr⟩ :=
    ReadVecLoop_scan j r.write r.read hw n (r.data.length + 1) (r.read + 1) r.data buf
      (by omega) (by omega) (by omega) hnj (by omega) hocc (fun h => hstop (by omega))
  have hne : r.isEmpty r.write r.read = false := by
    simp [RingBuffer.isEmpty]; omega
  have hadd : add32 r.read 1 = r.read + 1 := add32_of_lt (by omega)
  have hloop : ReadVecLoop r.mask r.write r.read (r.data.length + 1) (add32 r.read 1) r.data buf
      = .done (r.read + 1 + n, data1, buf1) := by
    rw [hmask, hadd]; exact hrun
  have hs1 : sub32 (r.read + 1 + n) 1 = r.read + n := by unfold sub32; omega
  have hs2 : sub32 (sub32 (r.read + 1 + n) r.read) 1 = n := by unfold sub32; omega
  refine ⟨{ r with read := r.read + n, data := data1 }, buf1, ?_, rfl, hmask, rfl, rfl, hlen1,
    hblen1, ?_, hclr, hfr, ?_⟩
  · rw [ReadVec_of_loop hne hloop, hs1, hs2]
  · intro i hi
    obtain ⟨v, h1, h2⟩ := hval i hi
    refine ⟨v, h1, ?_⟩
    rwa [show r.read + 1 + i - r.read - 1 = i by omega] at h2
  · intro k hk
    exact hbfr k (Or.inr (by omega))

theorem occupiedRun_le (data : List (Option T)) (mask : Nat) :
    ∀ k cur, occupiedRun data mask cur k ≤ k := by
  intro k
  induction k with
  | zero => intro cur; simp [occupiedRun]
  | succ k ih =>
    intro cur
    unfold occupiedRun
    split
    · have := ih (cur + 1); omega
    · omega

theorem occupiedRun_occupied (data : List (Option T)) (mask : Nat) :
    ∀ k cur i, i < occupiedRun data mask cur k →
      ∃ v, data[(cur + i) &&& mask]? = some (some v) := by
  intro k
  induction k with
  | zero => intro cur i hi; simp [occupiedRun] at hi
  | succ k ih =>
    intro cur i hi
    unfold occupiedRun at hi
    split at hi
    · rename_i v hv
      cases i with
      | zero => exact ⟨v, by simpa using hv⟩
      | succ i =>
        obtain ⟨x, hx⟩ := ih (cur + 1) i (by omega)
        exact ⟨x, by rwa [show cur + (i + 1) = cur + 1 + i by omega]⟩
    · omega

theorem occupiedRun_stop (data : List (Option T)) (mask : Nat) :
    ∀ k cur, occupiedRun data mask cur k < k →
      ∀ v, data[(cur + occupiedRun data mask cur k) &&& mask]? ≠ some (some v) := by
  intro k
  induction k with
  | zero => intro cur h; omega
  | succ k ih =>
    intro cur h v
    unfold occupiedRun at h ⊢
    split
    · rename_i x hx
      rw [hx] at h
      simp only at h
      have := ih (cur + 1) (by omega) v
      rwa [show cur + (occupiedRun data mask (cur + 1) k + 1)
        = cur + 1 + occupiedRun data mask (cur + 1) k by omega]
    · rename_i hno
      rw [Nat.add_zero]
      intro hv
      exact hno v hv

/-! ## The loop of `ReadVec` ends within its fuel -/

theorem countP_set_none (data : List (Option T)) :
    ∀ (i : Nat) (v : T), data[i]? = some (some v) →
      (data.set i none).countP Option.isSome + 1 = data.countP Option.isSome := by
  induction data with
  | nil => intro i v h; simp at h
  | cons a data ih =>
    intro i v h
    cases i with
    | zero =>
      simp only [List.getElem?_cons_zero, Option.some.injEq] at h
      subst h
      simp [List.countP_cons]
    | succ i =>
      simp only [List.getElem?_cons_succ] at h
      have := ih i v h
      simp only [List.set_cons_succ, List.countP_cons]
      omega

theorem ReadVecLoop_ne_outOfFuel (mask oldWrite oldRead : Nat) :
    ∀ (fuel cur : Nat) (data : List (Option T)) (buf : List T),
      data.countP Option.isSome < fuel →
      ReadVecLoop mask oldWrite oldRead fuel cur data buf ≠ .outOfFuel := by
  intro fuel
  induction fuel with
  | zero => intro cur data buf h; omega
  | succ fuel ih =>
    intro cur data buf h
    unfold ReadVecLoop
    split
    · split
      · simp
      · simp
      · rename_i v hv
        split
        · exact ih _ _ _ (by have := countP_set_none data _ v hv; omega)
        · simp
    · simp

/-- The fuel `len(data) + 1` is enough in every state and for every `buf`: `ReadVec`
always ends, by a return or by a panic. -/
theorem ReadVec_ne_outOfFuel (r : RingBuffer T) (buf : List T) :
    r.ReadVec buf ≠ .outOfFuel := by
  have hloop := ReadVecLoop_ne_outOfFuel r.mask r.write r.read (r.data.length + 1)
    (add32 r.read 1) r.data buf
    (Nat.lt_succ_of_le (List.countP_le_length (p := Option.isSome) (l := r.data)))
  by_cases he : r.isEmpty r.write r.read = true
  · rw [ReadVec_of_empty buf he]; simp
  · have he1 : r.isEmpty r.write r.read = false := by simpa using he
    cases hL : ReadVecLoop r.mask r.write r.read (r.data.length + 1) (add32 r.read 1)
        r.data buf with
    | done a =>
      obtain ⟨cur, data, buf1⟩ := a
      rw [ReadVec_of_loop he1 hL]; simp
    | panic =>
      unfold RingBuffer.ReadVec
      simp only [he1, hL]; simp
    | outOfFuel => exact absurd hL hloop

/-- C7: in a state with `cap = 2 ^ j`, `mask = cap - 1`, `cap` slots,
`read < write < 2^32 - 1` and `write - read <= cap - 1`, and for `buf` of length
`>= write - read`, let `n` be the number of consecutive occupied slots met when
scanning the cursors `read + 1, ..., write`, stopping at the first empty slot
(`n <= write - read`, the slots of the first `n` cursors are occupied, and the
slot of cursor `read + 1 + n` is empty when `n < write - read`). Then `ReadVec`
returns `n`; `buf[i]` is the value slot `(read + 1 + i) & mask` held, for `i < n`;
those `n` slots are empty afterwards; the read cursor is `read + n`; and the write
cursor, `cap`, `mask`, every other slot, the length of `buf` and `buf[n..]` are
unchanged. -/
theorem C7_readVec_postcondition (r : RingBuffer T) (j : Nat) (hcap : r.cap = 2 ^ j)
    (hmask : r.mask = r.cap - 1) (hlen : r.data.length = r.cap) (hrw : r.read < r.write)
    (hw : r.write < 2 ^ 32 - 1) (hocc : r.write - r.read ≤ r.cap - 1) (buf : List T)
    (hbuf : r.write - r.read ≤ buf.length) :
    ∃ r1 buf1 n, r.ReadVec buf = .done (r1, buf1, n) ∧
      n = occupiedRun r.data r.mask (r.read + 1) (r.write - r.read) ∧
      n ≤ r.write - r.read ∧
      (∀ i, i < n → ∃ v, r.data[(r.read + 1 + i) &&& r.mask]? = some (some v) ∧
        buf1[i]? = some v) ∧
      (n < r.write - r.read → r.data[(r.read + 1 + n) &&& r.mask]? = some none) ∧
      (∀ i, i < n → r1.data[(r.read + 1 + i) &&& r.mask]? = some none) ∧
      (∀ idx : Nat, (∀ i, i < n → idx ≠ (r.read + 1 + i) &&& r.mask) →
        r1.data[idx]? = r.data[idx]?) ∧
      r1.read = r.read + n ∧ r1.write = r.write ∧ r1.cap = r.cap ∧ r1.mask = r.mask ∧
      r1.data.length = r.data.length ∧ buf1.length = buf.length ∧
      (∀ k : Nat, n ≤ k → buf1[k]? = buf[k]?) := by
  have hm : r.mask = 2 ^ j - 1 := by rw [hmask, hcap]
  have hpos : 0 < 2 ^ j := Nat.pos_pow_of_pos j (by decide)
  have hle := occupiedRun_le r.data r.mask (r.write - r.read) (r.read + 1)
  have hstop : occupiedRun r.data r.mask (r.read + 1) (r.write - r.read) < r.write - r.read →
      r.data[(r.read + 1 + occupiedRun r.data r.mask (r.read + 1) (r.write - r.read))
        &&& r.mask]? = some none := by
    intro h
    have hno := occupiedRun_stop r.data r.mask (r.write - r.read) (r.read + 1) h
    have hin : (r.read + 1 + occupiedRun r.data r.mask (r.read + 1) (r.write - r.read))
        &&& r.mask < r.data.length := by
      have := @Nat.and_le_right
        (r.read + 1 + occupiedRun r.data r.mask (r.read + 1) (r.write - r.read)) r.mask
      have hcpos : 0 < r.cap := by rw [hcap]; exact hpos
      omega
    rw [List.getElem?_eq_getElem hin] at hno ⊢
    cases hv : r.data[(r.read + 1 + occupiedRun r.data r.mask (r.read + 1)
        (r.write - r.read)) &&& r.mask] with
    | none => rfl
    | some v => exact absurd (by rw [hv]) (hno v)
  obtain ⟨r1, buf1, hrun, h1, h2, h3, h4, h5, h6, h7, h8, h9, h10⟩ :=
    ReadVec_scan r j hm (by omega) hrw hw _ hle (by omega) buf (by omega)
      (occupiedRun_occupied r.data r.mask (r.write - r.read) (r.read + 1)) hstop
  exact ⟨r1, buf1, _, hrun, rfl, hle, h7, hstop, h8, h9, h4, h3, h1, h2, h5, h6, h10⟩

/-- Witness of C7: capacity 4, three cursors ahead, the third slot not yet published. -/
theorem C7_readVec_postcondition_witness :
    ∃ r1 buf1 n, (⟨4, 3, 4, 1, [none, some 5, some 6, some 7]⟩ : RingBuffer Nat).ReadVec
        [0, 0, 0] = .done (r1, buf1, n) ∧
      n = occupiedRun [none, some 5, some 6, some 7] 3 (1 + 1) (4 - 1) ∧
      n ≤ 4 - 1 ∧
      (∀ i, i < n → ∃ v, [none, some 5, some 6, some 7][(1 + 1 + i) &&& 3]? = some (some v) ∧
        buf1[i]? = some v) ∧
      (n < 4 - 1 → [none, some 5, some 6, some 7][(1 + 1 + n) &&& 3]? = some none) ∧
      (∀ i, i < n → r1.data[(1 + 1 + i) &&& 3]? = some none) ∧
      (∀ idx : Nat, (∀ i, i < n → idx ≠ (1 + 1 + i) &&& 3) →
        r1.data[idx]? = [none, some 5, some 6, some 7][idx]?) ∧
      r1.read = 1 + n ∧ r1.write = 4 ∧ r1.cap = 4 ∧ r1.mask = 3 ∧
      r1.data.length = [none, some 5, some 6, some 7].length ∧
      buf1.length = [0, 0, 0].length ∧
      (∀ k : Nat, n ≤ k → buf1[k]? = [0, 0, 0][k]?) :=
  C7_readVec_postcondition ⟨4, 3, 4, 1, [none, some 5, some 6, some 7]⟩ 2 (by decide)
    (by decide) (by decide) (by decide) (by decide) (by decide) [0, 0, 0] (by decide)

/-! ## Calls made one after another on a fresh buffer -/

theorem pow_two_cases (k : Nat) :
    (k < 32 ∧ 2 ^ k < 2 ^ 32 ∧ 2 ^ min k 32 = 2 ^ k) ∨
      (32 ≤ k ∧ (∃ m, 1 ≤ m ∧ 2 ^ k = 2 ^ 32 * m) ∧ 2 ^ min k 32 = 2 ^ 32) := by
  by_cases h : k < 32
  · exact Or.inl ⟨h, Nat.pow_lt_pow_right (by decide) h, by rw [Nat.min_eq_left (by omega)]⟩
  · refine Or.inr ⟨by omega, ⟨2 ^ (k - 32), Nat.one_le_two_pow, ?_⟩,
      by rw [Nat.min_eq_right (by omega)]⟩
    rw [← Nat.pow_add]
    congr 1
    omega

theorem NewRingBuffer_pow (k : Nat) :
    (NewRingBuffer ((2 : Int) ^ k) : Outcome (RingBuffer T))
      = .done ⟨2 ^ k % 2 ^ 32, (2 ^ k - 1) % 2 ^ 32, 0, 0, List.replicate (2 ^ k) none⟩ := by
  have hc : ((2 : Int) ^ k) = ((2 ^ k : Nat) : Int) := by push_cast; rfl
  have hpos : 1 ≤ 2 ^ k := Nat.one_le_two_pow
  have hn : ¬ ((2 ^ k : Nat) : Int) < 0 := by omega
  have h1 : uint32 ((2 ^ k : Nat) : Int) = 2 ^ k % 2 ^ 32 := by unfold uint32; omega
  have h2 : uint32 (((2 ^ k : Nat) : Int) - 1) = (2 ^ k - 1) % 2 ^ 32 := by
    unfold uint32; omega
  rw [hc]
  unfold NewRingBuffer
  rw [if_neg hn, h1, h2, Int.toNat_ofNat]

theorem Inv_fresh (k : Nat) :
    Inv (2 ^ k) (min k 32)
      (⟨2 ^ k % 2 ^ 32, (2 ^ k - 1) % 2 ^ 32, 0, 0, List.replicate (2 ^ k) none⟩ : RingBuffer T)
      [] := by
  have hpos : 1 ≤ 2 ^ k := Nat.one_le_two_pow
  have hmask : (2 ^ k - 1) % 2 ^ 32 = 2 ^ min k 32 - 1 := by
    rcases pow_two_cases k with ⟨_, h2, h3⟩ | ⟨_, ⟨m, hm, h2⟩, h3⟩
    · rw [h3]; omega
    · rw [h3, h2]; omega
  have hcap : sub32 (2 ^ k % 2 ^ 32) 1 = (2 ^ k - 1) % 2 ^ 32 := by
    unfold sub32
    rcases pow_two_cases k with ⟨_, h2, _⟩ | ⟨_, ⟨m, hm, h2⟩, _⟩
    · omega
    · rw [h2]; omega
  exact
    { hj := Nat.min_le_right k 32
      hjc := Nat.pow_le_pow_right (by decide) (Nat.min_le_left k 32)
      hmask := hmask
      hcap := hcap
      hlen := by simp
      hrw := Nat.le_refl 0
      hw := by simp
      hocc := by simp
      hp := by simp
      hslots := by intro i x h; simp at h }

theorem Write_inv {c j : Nat} {r : RingBuffer T} {p : List T} (hI : Inv c j r p)
    (hw : r.write < 2 ^ 32 - 1) (v : T) :
    ∃ r1 ok, r.Write v = .done (r1, ok) ∧ Inv c j r1 (cond ok (p ++ [v]) p) ∧
      r1.write ≤ r.write + 1 := by
  have hs : sub32 r.write r.read = r.write - r.read := sub32_of_le hI.hw hI.hrw
  have hadd : add32 r.write 1 = r.write + 1 := add32_of_lt (by omega)
  by_cases hfull : r.mask ≤ r.write - r.read
  · refine ⟨r, false, ?_, hI, by omega⟩
    simp only [RingBuffer.Write, RingBuffer.isFull, hs, hI.hcap, ge_iff_le, hfull, decide_True,
      if_true]
  · have hidx : (r.write + 1) &&& r.mask < r.data.length := by
      have := land_lt_pow (r.write + 1) j
      rw [← hI.hmask] at this
      have := hI.hjc
      have := hI.hlen
      omega
    have hnf : r.isFull r.write r.read = false := by
      simp only [RingBuffer.isFull, hs, hI.hcap, ge_iff_le, hfull, decide_False]
    cases hslot : r.data[(r.write + 1) &&& r.mask]? with
    | none =>
      rw [List.getElem?_eq_getElem hidx] at hslot
      simp at hslot
    | some o =>
      cases o with
      | some x =>
        refine ⟨r, false, ?_, hI, by omega⟩
        simp only [RingBuffer.Write, hnf, hadd, hslot, Bool.false_eq_true, if_false]
      | none =>
        refine ⟨{ r with write := r.write + 1,
                         data := r.data.set ((r.write + 1) &&& r.mask) (some v) },
          true, ?_, ?_, by simp⟩
        · simp only [RingBuffer.Write, hnf, hadd, hslot, Bool.false_eq_true, if_false,
            CompareAndSwapUint32, if_true]
        · have hpl := hI.hp
          have hrw := hI.hrw
          refine
            { hj := hI.hj
              hjc := hI.hjc
              hmask := hI.hmask
              hcap := hI.hcap
              hlen := by simpa using hI.hlen
              hrw := by simp; omega
              hw := by simp; omega
              hocc := by simp; omega
              hp := by simp; omega
              hslots := ?_ }
          intro i x hx
          simp only [cond_true] at hx
          show (r.data.set ((r.write + 1) &&& r.mask) (some v))[(r.read + 1 + i) &&& r.mask]?
            = some (some x)
          rcases Nat.lt_trichotomy i p.length with hlt | heq | hgt
          · rw [List.getElem?_append_left hlt] at hx
            have hne : (r.read + 1 + i) &&& r.mask ≠ (r.write + 1) &&& r.mask := by
              rw [hI.hmask]
              apply land_ne_of_lt (by omega)
              have := hI.hmask
              have := Nat.one_le_two_pow (n := j)
              omega
            rw [List.getElem?_set, if_neg (Ne.symm hne)]
            exact hI.hslots i x hx
          · subst heq
            rw [List.getElem?_append_right (Nat.le_refl _)] at hx
            simp at hx
            subst hx
            rw [show r.read + 1 + p.length = r.write + 1 by omega]
            rw [List.getElem?_set, if_pos rfl, if_pos hidx]
          · rw [List.getElem?_eq_none (by simp; omega)] at hx
            simp at hx

theorem Read_inv [Inhabited T] {c j : Nat} {r : RingBuffer T} {p : List T} (hI : Inv c j r p) :
    ∃ r1 v ok p1, r.Read = .done (r1, v, ok) ∧ Inv c j r1 p1 ∧ p = cond ok (v :: p1) p1 ∧
      r1.write = r.write := by
  by_cases hlt : r.read < r.write
  · have hne : r.isEmpty r.write r.read = false := by
      simp [RingBuffer.isEmpty]; omega
    have hadd : add32 r.read 1 = r.read + 1 := add32_of_lt (by have := hI.hw; omega)
    have hpl := hI.hp
    cases p with
    | nil => simp at hpl; omega
    | cons x p1 =>
      have hslot := hI.hslots 0 x (by simp)
      simp only [Nat.add_zero] at hslot
      refine ⟨{ r with read := r.read + 1 }, x, true, p1, ?_, ?_, rfl, rfl⟩
      · simp only [RingBuffer.Read, hne, hadd, hslot, Bool.false_eq_true, if_false,
          CompareAndSwapUint32, if_true]
      · have := hI.hocc
        refine
          { hj := hI.hj
            hjc := hI.hjc
            hmask := hI.hmask
            hcap := hI.hcap
            hlen := hI.hlen
            hrw := by simp; omega
            hw := hI.hw
            hocc := by simp; omega
            hp := by simp at hpl ⊢; omega
            hslots := ?_ }
        intro i y hy
        have := hI.hslots (i + 1) y (by simpa using hy)
        rwa [show r.read + 1 + (i + 1) = r.read + 1 + 1 + i by omega] at this
  · have he : r.isEmpty r.write r.read = true := by
      simp [RingBuffer.isEmpty]; omega
    refine ⟨r, default, false, p, ?_, hI, rfl, rfl⟩
    simp only [RingBuffer.Read, he, if_true]

theorem ReadVec_inv {c j : Nat} {r : RingBuffer T} {p : List T} (hI : Inv c j r p)
    (hw : r.write < 2 ^ 32 - 1) (buf : List T) (hbuf : c - 1 ≤ buf.length) :
    ∃ r1 buf1, r.ReadVec buf = .done (r1, buf1, r.write - r.read) ∧ Inv c j r1 [] ∧
      buf1.take (r.write - r.read) = p ∧ r1.write = r.write ∧ r1.read = r.write ∧
      buf1.length = buf.length := by
  have hpl := hI.hp
  have hrw := hI.hrw
  by_cases hlt : r.read < r.write
  · have hm := hI.hmask
    have hjc := hI.hjc
    have hlen := hI.hlen
    have hocc := hI.hocc
    have hpos := Nat.one_le_two_pow (n := j)
    have hslot : ∀ i, i < r.write - r.read →
        ∃ v, r.data[(r.read + 1 + i) &&& r.mask]? = some (some v) := by
      intro i hi
      have hip : i < p.length := by omega
      exact ⟨p[i], hI.hslots i p[i] (List.getElem?_eq_getElem hip)⟩
    obtain ⟨r1, buf1, hrun, h1, h2, h3, h4, h5, h6, h7, -, -, -⟩ :=
      ReadVec_scan r j hm (by omega) hlt hw (r.write - r.read) (Nat.le_refl _) (by omega) buf
        (by omega) hslot (fun h => absurd h (Nat.lt_irrefl _))
    refine ⟨r1, buf1, hrun, ?_, ?_, h3, by omega, h6⟩
    · exact
        { hj := hI.hj
          hjc := hI.hjc
          hmask := by rw [h2]; exact hm
          hcap := by rw [h1, h2]; exact hI.hcap
          hlen := by rw [h5]; exact hlen
          hrw := by omega
          hw := by rw [h3]; exact hI.hw
          hocc := by omega
          hp := by simp; omega
          hslots := by intro i x h; simp at h }
    · apply List.ext_getElem?
      intro i
      rw [List.getElem?_take]
      by_cases hi : i < r.write - r.read
      · rw [if_pos hi]
        obtain ⟨v, hv1, hv2⟩ := h7 i hi
        have hip : i < p.length := by omega
        have := hI.hslots i p[i] (List.getElem?_eq_getElem hip)
        rw [hv1] at this
        simp only [Option.some.injEq] at this
        rw [hv2, List.getElem?_eq_getElem hip, this]
      · rw [if_neg hi, List.getElem?_eq_none (by omega)]
  · have he : r.isEmpty r.write r.read = true := by
      simp [RingBuffer.isEmpty]; omega
    have hp0 : p = [] := List.length_eq_zero.mp (by omega)
    have hz : r.write - r.read = 0 := by omega
    subst hp0
    refine ⟨r, buf, ?_, hI, ?_, rfl, by omega, rfl⟩
    · rw [ReadVec_of_empty buf he, hz]
    · rw [hz]; rfl

/-- Every run of fewer than `2^32 - 1 - write` calls from a state satisfying the
invariant returns, keeps the invariant and hands out the pending values first. -/
theorem run_inv [Inhabited T] {c j : Nat} :
    ∀ (ops : List (Op T)) (r : RingBuffer T) (p : List T), Inv c j r p →
      r.write + ops.length < 2 ^ 32 - 1 →
      (∀ buf, Op.readVec buf ∈ ops → c - 1 ≤ buf.length) →
      ∃ r1 es p1, run r ops = .done (r1, es) ∧ Inv c j r1 p1 ∧
        p ++ written es = handed es ++ p1 ∧ r1.write ≤ r.write + ops.length := by
  intro ops
  induction ops with
  | nil =>
    intro r p hI _ _
    exact ⟨r, [], p, rfl, hI, by simp [written, handed], by simp⟩
  | cons op ops ih =>
    intro r p hI hlen hbuf
    simp only [List.length_cons] at hlen
    have hbuf1 : ∀ buf, Op.readVec buf ∈ ops → c - 1 ≤ buf.length :=
      fun buf h => hbuf buf (List.mem_cons_of_mem _ h)
    cases op with
    | write v =>
      obtain ⟨r1, ok, hrun, hI1, hw1⟩ := Write_inv hI (by omega) v
      obtain ⟨r2, es, p2, hrun2, hI2, hfifo, hw2⟩ := ih r1 _ hI1 (by omega) hbuf1
      refine ⟨r2, .write v ok :: es, p2, run_cons_done (step_write_done hrun) hrun2, hI2, ?_,
        by simp only [List.length_cons]; omega⟩
      cases ok with
      | true => simpa [written, handed] using hfifo
      | false => simpa [written, handed] using hfifo
    | read =>
      obtain ⟨r1, v, ok, p1, hrun, hI1, hp, hw1⟩ := Read_inv hI
      obtain ⟨r2, es, p2, hrun2, hI2, hfifo, hw2⟩ := ih r1 p1 hI1 (by omega) hbuf1
      refine ⟨r2, .read v ok :: es, p2, run_cons_done (step_read_done hrun) hrun2, hI2, ?_,
        by simp only [List.length_cons]; omega⟩
      cases ok with
      | true =>
        simp only [cond_true] at hp
        subst hp
        simp [written, handed, hfifo]
      | false =>
        simp only [cond_false] at hp
        subst hp
        simpa [written, handed] using hfifo
    | readVec buf =>
      obtain ⟨r1, buf1, hrun, hI1, htake, hw1, _, _⟩ :=
        ReadVec_inv hI (by omega) buf (hbuf buf (List.mem_cons_self _ _))
      obtain ⟨r2, es, p2, hrun2, hI2, hfifo, hw2⟩ := ih r1 [] hI1 (by omega) hbuf1
      refine ⟨r2, .readVec buf1 (r.write - r.read) :: es, p2,
        run_cons_done (step_readVec_done hrun) hrun2, hI2, ?_,
        by simp only [List.length_cons]; omega⟩
      simp only [List.nil_append] at hfifo
      simp [written, handed, htake, hfifo]

/-- A run on a buffer fresh from `NewRingBuffer(2 ^ k)`. -/
theorem runFresh_inv [Inhabited T] (k : Nat) (ops : List (Op T))
    (hlen : ops.length < 2 ^ 32 - 1)
    (hbuf : ∀ buf, Op.readVec buf ∈ ops → 2 ^ k - 1 ≤ buf.length) :
    ∃ r es p, runFresh ((2 : Int) ^ k) ops = .done (r, es) ∧ Inv (2 ^ k) (min k 32) r p ∧
      written es = handed es ++ p := by
  obtain ⟨r, es, p, hrun, hI, hfifo, -⟩ :=
    run_inv ops _ [] (Inv_fresh (T := T) k) (by simpa using hlen) hbuf
  refine ⟨r, es, p, ?_, hI, by simpa using hfifo⟩
  rw [runFresh_done ops (NewRingBuffer_pow k)]
  exact hrun

/-- C1 (FIFO law): for every capacity `c = 2 ^ k` (in particular every power of
two `c >= 2`) and every sequence of fewer than `2^32 - 1` calls to `Write`, `Read`
and `ReadVec`, each `ReadVec` given a buffer of length `>= c - 1`, made one after
another on a buffer from `NewRingBuffer(c)`: every call returns, and the list of
values handed out, in call order, is a prefix of the list of values whose `Write`
returned true, in the order of those `Write`s. -/
theorem C1_fifo [Inhabited T] (k : Nat) (ops : List (Op T)) (hlen : ops.length < 2 ^ 32 - 1)
    (hbuf : ∀ buf, Op.readVec buf ∈ ops → 2 ^ k - 1 ≤ buf.length) :
    ∃ r es, runFresh ((2 : Int) ^ k) ops = .done (r, es) ∧ handed es <+: written es := by
  obtain ⟨r, es, p, hrun, -, hfifo⟩ := runFresh_inv k ops hlen hbuf
  exact ⟨r, es, hrun, ⟨p, hfifo.symm⟩⟩

/-- Witness of C1: capacity 4, a `Read` followed by a `ReadVec` between `Write`s. -/
theorem C1_fifo_witness :
    [Op.write 1, .write 2, .write 3, .read, .readVec [0, 0, 0], .write 4, .read].length
        < 2 ^ 32 - 1 ∧
      (∀ buf, Op.readVec buf ∈
          [Op.write 1, .write 2, .write 3, .read, .readVec [0, 0, 0], .write 4, .read] →
        2 ^ 2 - 1 ≤ buf.length) ∧
      ∃ r es, runFresh ((2 : Int) ^ 2)
          [Op.write 1, .write 2, .write 3, .read, .readVec [0, 0, 0], .write 4, .read]
            = .done (r, es) ∧ handed es <+: written es :=
  ⟨by decide, by simp, C1_fifo 2 _ (by decide) (by simp)⟩

/-- C4 (occupancy): in the state reached from `NewRingBuffer(c)`, `c = 2 ^ k`, by
any sequence of fewer than `2^32 - 1` calls (`ReadVec` buffers of length
`>= c - 1`), the read cursor is at most the write cursor and `write - read`, as a
difference of numbers and as a `uint32` subtraction, is at most `c - 1`. -/
theorem C4_occupancy [Inhabited T] (k : Nat) (ops : List (Op T))
    (hlen : ops.length < 2 ^ 32 - 1)
    (hbuf : ∀ buf, Op.readVec buf ∈ ops → 2 ^ k - 1 ≤ buf.length) :
    ∃ r es, runFresh ((2 : Int) ^ k) ops = .done (r, es) ∧ r.read ≤ r.write ∧
      r.write - r.read ≤ 2 ^ k - 1 ∧ sub32 r.write r.read ≤ 2 ^ k - 1 := by
  obtain ⟨r, es, p, hrun, hI, -⟩ := runFresh_inv k ops hlen hbuf
  have h1 := hI.hocc
  have h2 := hI.hmask
  have h3 : 2 ^ min k 32 ≤ 2 ^ k := hI.hjc
  refine ⟨r, es, hrun, hI.hrw, by omega, ?_⟩
  rw [sub32_of_le hI.hw hI.hrw]
  omega

/-- Witness of C4: capacity 4, four `Write`s and a `Read`. -/
theorem C4_occupancy_witness :
    [Op.write 1, .write 2, .write 3, .write 4, .read].length < 2 ^ 32 - 1 ∧
      (∀ buf, Op.readVec buf ∈ [Op.write 1, .write 2, .write 3, .write 4, .read] →
        2 ^ 2 - 1 ≤ buf.length) ∧
      ∃ r es, runFresh ((2 : Int) ^ 2) [Op.write 1, .write 2, .write 3, .write 4, .read]
          = .done (r, es) ∧ r.read ≤ r.write ∧
        r.write - r.read ≤ 2 ^ 2 - 1 ∧ sub32 r.write r.read ≤ 2 ^ 2 - 1 :=
  ⟨by decide, by simp, C4_occupancy 2 _ (by decide) (by simp)⟩

/-- C6 (batch drain is complete): in the state reached from `NewRingBuffer(c)`,
`c = 2 ^ k`, by fewer than `2^32 - 1` calls made one after another, a `ReadVec`
with a buffer of length `>= c - 1` returns exactly `write - read`, the first
`write - read` entries of `buf` being the values written and not yet handed out;
afterwards `read == write`, an immediately following `Read` returns the zero value
and `ok = false`, and an immediately following `ReadVec` returns 0; both leave
the state as it is. -/
theorem C6_batch_drain_complete [Inhabited T] (k : Nat) (ops : List (Op T))
    (hlen : ops.length < 2 ^ 32 - 1)
    (hbuf : ∀ buf, Op.readVec buf ∈ ops → 2 ^ k - 1 ≤ buf.length)
    (buf : List T) (hb : 2 ^ k - 1 ≤ buf.length) :
    ∃ r es r1 buf1, runFresh ((2 : Int) ^ k) ops = .done (r, es) ∧
      r.ReadVec buf = .done (r1, buf1, r.write - r.read) ∧
      written es = handed es ++ buf1.take (r.write - r.read) ∧
      r1.read = r1.write ∧ r1.write = r.write ∧
      r1.Read = .done (r1, default, false) ∧
      ∀ buf2, r1.ReadVec buf2 = .done (r1, buf2, 0) := by
  obtain ⟨r, es, p, hrun, hI, hfifo⟩ := runFresh_inv k ops hlen hbuf
  have hw : r.write < 2 ^ 32 - 1 := by
    obtain ⟨r', es', p', hrun', -, -, hw'⟩ :=
      run_inv ops _ [] (Inv_fresh (T := T) k) (by simpa using hlen) hbuf
    rw [runFresh_done ops (NewRingBuffer_pow k), hrun'] at hrun
    simp only [Outcome.done.injEq, Prod.mk.injEq] at hrun
    obtain ⟨rfl, -⟩ := hrun
    simp only [Nat.zero_add] at hw'
    omega
  obtain ⟨r1, buf1, hrv, hI1, htake, hw1, hr1, -⟩ := ReadVec_inv hI hw buf hb
  have he : r1.isEmpty r1.write r1.read = true := by
    simp [RingBuffer.isEmpty]; omega
  refine ⟨r, es, r1, buf1, hrun, hrv, by rw [htake]; exact hfifo, by omega, hw1, ?_,
    fun buf2 => ReadVec_of_empty buf2 he⟩
  simp only [RingBuffer.Read, he, if_true]

/-- Witness of C6: capacity 4, three `Write`s and a `Read`, then the drain. -/
theorem C6_batch_drain_complete_witness :
    [Op.write 1, .write 2, .write 3, .read].length < 2 ^ 32 - 1 ∧
      (∀ buf, Op.readVec buf ∈ [Op.write 1, .write 2, .write 3, .read] →
        2 ^ 2 - 1 ≤ buf.length) ∧
      2 ^ 2 - 1 ≤ [0, 0, 0].length ∧
      ∃ r es r1 buf1, runFresh ((2 : Int) ^ 2) [Op.write 1, .write 2, .write 3, .read]
          = .done (r, es) ∧
        r.ReadVec [0, 0, 0] = .done (r1, buf1, r.write - r.read) ∧
        written es = handed es ++ buf1.take (r.write - r.read) ∧
        r1.read = r1.write ∧ r1.write = r.write ∧
        r1.Read = .done (r1, default, false) ∧
        ∀ buf2, r1.ReadVec buf2 = .done (r1, buf2, 0) :=
  ⟨by decide, by simp, by decide, C6_batch_drain_complete 2 _ (by decide) (by simp) [0, 0, 0]
    (by decide)⟩

/-! ## `Write`s alone on a fresh buffer -/

theorem WritesInv_fresh (k : Nat) :
    WritesInv (2 ^ k) (min k 32)
      (⟨2 ^ k % 2 ^ 32, (2 ^ k - 1) % 2 ^ 32, 0, 0, List.replicate (2 ^ k) none⟩ :
        RingBuffer T) := by
  have hI := Inv_fresh (T := T) k
  exact
    { hj := hI.hj
      hjc := hI.hjc
      hmask := hI.hmask
      hcap := hI.hcap
      hlen := hI.hlen
      hread := rfl
      hwm := Nat.zero_le _
      hempty := by
        intro idx _ hidx
        show (List.replicate (2 ^ k) none)[idx]? = some none
        rw [List.getElem?_replicate, if_pos hidx] }

theorem Write_writesInv {c j : Nat} {r : RingBuffer T} (hI : WritesInv c j r) (v : T) :
    ∃ r1, r.Write v = .done (r1, decide (r.write < r.mask)) ∧ WritesInv c j r1 ∧
      r1.mask = r.mask ∧ r1.write = if r.write < r.mask then r.write + 1 else r.write := by
  have hm := hI.hmask
  have hjc := hI.hjc
  have hr0 := hI.hread
  have hwm := hI.hwm
  have hpos := Nat.one_le_two_pow (n := j)
  have hj32 : 2 ^ j ≤ 2 ^ 32 := Nat.pow_le_pow_right (by decide) hI.hj
  have hs : sub32 r.write r.read = r.write := by
    rw [hr0]; unfold sub32; omega
  by_cases hlt : r.write < r.mask
  · have hnf : r.isFull r.write r.read = false := by
      simp only [RingBuffer.isFull, hs, hI.hcap, ge_iff_le, decide_eq_false_iff_not]; omega
    have hadd : add32 r.write 1 = r.write + 1 := add32_of_lt (by omega)
    have hland : (r.write + 1) &&& r.mask = r.write + 1 := by
      rw [hm, Nat.and_pow_two_sub_one_eq_mod]
      exact Nat.mod_eq_of_lt (by omega)
    have hslot : r.data[r.write + 1]? = some none := hI.hempty _ (by omega) (by omega)
    refine ⟨{ r with write := r.write + 1, data := r.data.set (r.write + 1) (some v) }, ?_, ?_,
      rfl, by simp [hlt]⟩
    · simp only [RingBuffer.Write, hnf, hadd, hland, hslot, Bool.false_eq_true, if_false,
        CompareAndSwapUint32, if_true, hlt, decide_True]
    · exact
        { hj := hI.hj
          hjc := hI.hjc
          hmask := hI.hmask
          hcap := hI.hcap
          hlen := by simpa using hI.hlen
          hread := hI.hread
          hwm := by simp; omega
          hempty := by
            intro idx h1 h2
            show (r.data.set (r.write + 1) (some v))[idx]? = some none
            simp only at h1
            rw [List.getElem?_set, if_neg (by omega)]
            exact hI.hempty idx (by omega) h2 }
  · have hfull : r.isFull r.write r.read = true := by
      simp only [RingBuffer.isFull, hs, hI.hcap, ge_iff_le, decide_eq_true_eq]; omega
    refine ⟨r, ?_, hI, rfl, by simp [hlt]⟩
    simp only [RingBuffer.Write, hfull, if_true, hlt, decide_False]

theorem run_writes [Inhabited T] {c j : Nat} :
    ∀ (vs : List T) (r : RingBuffer T), WritesInv c j r →
      ∃ r1 es, run r (vs.map Op.write) = .done (r1, es) ∧
        writeOks es = (List.range vs.length).map (fun i => decide (r.write + i < r.mask)) := by
  intro vs
  induction vs with
  | nil => intro r _; exact ⟨r, [], rfl, rfl⟩
  | cons v vs ih =>
    intro r hI
    obtain ⟨r1, hrun, hI1, hm1, hw1⟩ := Write_writesInv hI v
    obtain ⟨r2, es, hrun2, hoks⟩ := ih r1 hI1
    refine ⟨r2, _, run_cons_done (step_write_done hrun) hrun2, ?_⟩
    rw [List.length_cons, List.range_succ_eq_map, List.map_cons, List.map_map]
    simp only [writeOks, Nat.add_zero, hoks, hm1]
    congr 1
    apply List.map_congr_left
    intro i _
    simp only [Function.comp, Nat.succ_eq_add_one, decide_eq_decide]
    rw [hw1]
    split <;> omega

/-- On a buffer fresh from `NewRingBuffer(2 ^ k)`, `Write`s made in a row all return,
and the `(i + 1)`-th returns true exactly when `i + 1 <= min(2 ^ k, 2 ^ 32) - 1`. -/
theorem writes_fresh [Inhabited T] (k : Nat) (vs : List T) :
    ∃ r es, runFresh ((2 : Int) ^ k) (vs.map Op.write) = .done (r, es) ∧
      (writeOks es).length = vs.length ∧
      ∀ i, i < vs.length → (writeOks es)[i]? = some (decide (i + 1 ≤ 2 ^ min k 32 - 1)) := by
  obtain ⟨r, es, hrun, hoks⟩ := run_writes vs _ (WritesInv_fresh (T := T) k)
  have hm : (2 ^ k - 1) % 2 ^ 32 = 2 ^ min k 32 - 1 := (Inv_fresh (T := T) k).hmask
  refine ⟨r, es, ?_, by rw [hoks]; simp, ?_⟩
  · rw [runFresh_done _ (NewRingBuffer_pow k)]; exact hrun
  · intro i hi
    rw [hoks, List.getElem?_map, List.getElem?_range hi]
    simp only [Option.map_some', Nat.zero_add, Option.some.injEq, decide_eq_decide]
    rw [hm]
    omega

/-- C10, counterexample: with capacity `2 ^ 33` the `2 ^ 32`-th `Write` in a row
returns false although `2 ^ 32 <= 2 ^ 33 - 1`: `cap` is `uint32(2 ^ 33) = 0`, so
`isFull` compares with `2 ^ 32 - 1`. -/
theorem C10_capacity_above_uint32 :
    ∃ r es, runFresh ((2 : Int) ^ 33) ((List.replicate (2 ^ 32) (0 : Nat)).map Op.write)
        = .done (r, es) ∧
      (writeOks es)[2 ^ 32 - 1]? = some false ∧ 2 ^ 32 ≤ 2 ^ 33 - 1 := by
  obtain ⟨r, es, hrun, -, hoks⟩ := writes_fresh 33 (List.replicate (2 ^ 32) (0 : Nat))
  refine ⟨r, es, hrun, ?_, by norm_num⟩
  have h := hoks (2 ^ 32 - 1) (by rw [List.length_replicate]; norm_num)
  rw [h]
  norm_num

/-- C10, amended: for every capacity `c = 2 ^ k` with `c <= 2 ^ 32` and every
number of `Write`s made in a row on a buffer fresh from `NewRingBuffer(c)` with no
read in between, every `Write` returns, and the `i`-th (counting from 1) returns
true if and only if `i <= c - 1`. -/
theorem C10_usable_capacity [Inhabited T] (k : Nat) (hk : k ≤ 32) (vs : List T) :
    ∃ r es, runFresh ((2 : Int) ^ k) (vs.map Op.write) = .done (r, es) ∧
      (writeOks es).length = vs.length ∧
      ∀ i, 1 ≤ i → i ≤ vs.length → (writeOks es)[i - 1]? = some (decide (i ≤ 2 ^ k - 1)) := by
  obtain ⟨r, es, hrun, hlen, hoks⟩ := writes_fresh k vs
  refine ⟨r, es, hrun, hlen, ?_⟩
  intro i h1 h2
  rw [hoks (i - 1) (by omega), Nat.min_eq_left hk, show i - 1 + 1 = i by omega]

/-- Witness of C10 (amended): capacity 4 and five `Write`s. -/
theorem C10_usable_capacity_witness :
    2 ≤ 32 ∧
    ∃ r es, runFresh ((2 : Int) ^ 2) ([1, 2, 3, 4, 5].map Op.write) = .done (r, es) ∧
      (writeOks es).length = [1, 2, 3, 4, 5].length ∧
      ∀ i, 1 ≤ i → i ≤ [1, 2, 3, 4, 5].length →
        (writeOks es)[i - 1]? = some (decide (i ≤ 2 ^ 2 - 1)) :=
  ⟨by decide, C10_usable_capacity 2 (by decide) [1, 2, 3, 4, 5]⟩

/-! ## No call panics on a reached state -/

/-- A run of `n` calls on a fresh buffer leaves the write cursor at most at `n`. -/
theorem runFresh_inv_write [Inhabited T] (k : Nat) (ops : List (Op T))
    (hlen : ops.length < 2 ^ 32 - 1)
    (hbuf : ∀ buf, Op.readVec buf ∈ ops → 2 ^ k - 1 ≤ buf.length) :
    ∃ r es p, runFresh ((2 : Int) ^ k) ops = .done (r, es) ∧ Inv (2 ^ k) (min k 32) r p ∧
      r.write ≤ ops.length := by
  obtain ⟨r, es, p, hrun, hI, -, hw⟩ :=
    run_inv ops _ [] (Inv_fresh (T := T) k) (by simpa using hlen) hbuf
  refine ⟨r, es, p, ?_, hI, by simpa using hw⟩
  rw [runFresh_done ops (NewRingBuffer_pow k)]
  exact hrun

/-- C11: in the state reached from `NewRingBuffer(c)`, `c = 2 ^ k`, by fewer than
`2^32 - 1` calls made one after another (`ReadVec` buffers of length `>= c - 1`),
there are `c` slots, every slot index `x & mask` is below `c`, and every index
`cur - oldRead - 1` that `ReadVec` can write in `buf` (for a cursor `cur` in
`read + 1 .. write`) is below `c - 1`; so `Write`, `Read`, and `ReadVec` with a
`buf` of length `>= c - 1`, all return: none panics. -/
theorem C11_no_panic [Inhabited T] (k : Nat) (ops : List (Op T))
    (hlen : ops.length < 2 ^ 32 - 1)
    (hbuf : ∀ buf, Op.readVec buf ∈ ops → 2 ^ k - 1 ≤ buf.length) :
    ∃ r es, runFresh ((2 : Int) ^ k) ops = .done (r, es) ∧
      r.data.length = 2 ^ k ∧
      (∀ x : Nat, x &&& r.mask < 2 ^ k) ∧
      (∀ cur, r.read < cur → cur ≤ r.write → sub32 (sub32 cur r.read) 1 < 2 ^ k - 1) ∧
      (∀ v, ∃ r1 ok, r.Write v = .done (r1, ok)) ∧
      (∃ r1 v ok, r.Read = .done (r1, v, ok)) ∧
      (∀ buf, 2 ^ k - 1 ≤ buf.length → ∃ r1 buf1 n, r.ReadVec buf = .done (r1, buf1, n)) := by
  obtain ⟨r, es, p, hrun, hI, hw⟩ := runFresh_inv_write k ops hlen hbuf
  have hm := hI.hmask
  have hjc : 2 ^ min k 32 ≤ 2 ^ k := hI.hjc
  have hocc := hI.hocc
  have hrw := hI.hrw
  have hpos := Nat.one_le_two_pow (n := min k 32)
  refine ⟨r, es, hrun, hI.hlen, ?_, ?_, ?_, ?_, ?_⟩
  · intro x
    have := land_lt_pow x (min k 32)
    rw [hm]; omega
  · intro cur h1 h2
    have : sub32 (sub32 cur r.read) 1 = cur - r.read - 1 := by
      unfold sub32; omega
    rw [this]; omega
  · intro v
    obtain ⟨r1, ok, h, -, -⟩ := Write_inv hI (by omega) v
    exact ⟨r1, ok, h⟩
  · obtain ⟨r1, v, ok, p1, h, -, -, -⟩ := Read_inv hI
    exact ⟨r1, v, ok, h⟩
  · intro buf hb
    obtain ⟨r1, buf1, h, -⟩ := ReadVec_inv hI (by omega) buf hb
    exact ⟨r1, buf1, _, h⟩

/-- Witness of C11: capacity 4, three `Write`s and a `Read`. -/
theorem C11_no_panic_witness :
    [Op.write 1, .write 2, .write 3, .read].length < 2 ^ 32 - 1 ∧
      (∀ buf, Op.readVec buf ∈ [Op.write 1, .write 2, .write 3, .read] →
        2 ^ 2 - 1 ≤ buf.length) ∧
      ∃ r es, runFresh ((2 : Int) ^ 2) [Op.write 1, .write 2, .write 3, .read]
          = .done (r, es) ∧
        r.data.length = 2 ^ 2 ∧
        (∀ x : Nat, x &&& r.mask < 2 ^ 2) ∧
        (∀ cur, r.read < cur → cur ≤ r.write → sub32 (sub32 cur r.read) 1 < 2 ^ 2 - 1) ∧
        (∀ v, ∃ r1 ok, r.Write v = .done (r1, ok)) ∧
        (∃ r1 v ok, r.Read = .done (r1, v, ok)) ∧
        (∀ buf, 2 ^ 2 - 1 ≤ buf.length →
          ∃ r1 buf1 n, r.ReadVec buf = .done (r1, buf1, n)) :=
  ⟨by decide, by simp, C11_no_panic 2 _ (by decide) (by simp)⟩

/-! ## The two layouts -/

theorem ReadVecLoopWithoutAlign_eq (mask oldWrite oldRead : Nat) :
    ∀ (fuel cur : Nat) (data : List (Option T)) (buf : List T),
      ReadVecLoopWithoutAlign mask oldWrite oldRead fuel cur data buf
        = ReadVecLoop mask oldWrite oldRead fuel cur data buf := by
  intro fuel
  induction fuel with
  | zero => intro cur data buf; rfl
  | succ fuel ih =>
    intro cur data buf
    rw [ReadVecLoopWithoutAlign, ReadVecLoop]
    by_cases hle : cur ≤ oldWrite
    · rw [if_pos hle, if_pos hle]
      cases hs : data[cur &&& mask]? with
      | none => rfl
      | some o =>
        cases o with
        | none => rfl
        | some v => simp only [ih]
    · rw [if_neg hle, if_neg hle]

theorem Write_unpad (r : RingBuffer T) (v : T) :
    r.unpad.Write v = (r.Write v).bind fun p => .done (p.1.unpad, p.2) := by
  unfold RingBufferWithoutAlign.Write RingBuffer.Write
  simp only [RingBufferWithoutAlign.isFull, RingBuffer.isFull, RingBuffer.unpad,
    CompareAndSwapUint32, if_true]
  by_cases hf : decide (sub32 r.write r.read ≥ sub32 r.cap 1) = true
  · rw [if_pos hf, if_pos hf]; rfl
  · rw [if_neg hf, if_neg hf]
    cases hs : r.data[add32 r.write 1 &&& r.mask]? with
    | none => rfl
    | some o => cases o <;> rfl

theorem Read_unpad [Inhabited T] (r : RingBuffer T) :
    r.unpad.Read = r.Read.bind fun p => .done (p.1.unpad, p.2) := by
  unfold RingBufferWithoutAlign.Read RingBuffer.Read
  simp only [RingBufferWithoutAlign.isEmpty, RingBuffer.isEmpty, RingBuffer.unpad,
    CompareAndSwapUint32, if_true]
  by_cases he : (decide (r.write = r.read) || decide (r.write < r.read)) = true
  · rw [if_pos he, if_pos he]; rfl
  · rw [if_neg he, if_neg he]
    cases hs : r.data[add32 r.read 1 &&& r.mask]? with
    | none => rfl
    | some o => cases o <;> rfl

theorem ReadVec_unpad (r : RingBuffer T) (buf : List T) :
    r.unpad.ReadVec buf = (r.ReadVec buf).bind fun p => .done (p.1.unpad, p.2) := by
  unfold RingBufferWithoutAlign.ReadVec RingBuffer.ReadVec
  simp only [RingBufferWithoutAlign.isEmpty, RingBuffer.isEmpty, RingBuffer.unpad,
    ReadVecLoopWithoutAlign_eq]
  by_cases he : (decide (r.write = r.read) || decide (r.write < r.read)) = true
  · rw [if_pos he, if_pos he]; rfl
  · rw [if_neg he, if_neg he]
    cases hL : ReadVecLoop r.mask r.write r.read (r.data.length + 1) (add32 r.read 1)
        r.data buf with
    | done a => rfl
    | panic => rfl
    | outOfFuel => rfl

theorem step_unpad [Inhabited T] (r : RingBuffer T) (op : Op T) :
    stepWithoutAlign r.unpad op = (step r op).bind fun p => .done (p.1.unpad, p.2) := by
  cases op with
  | write v =>
    simp only [stepWithoutAlign, step, Write_unpad]
    cases r.Write v <;> rfl
  | read =>
    simp only [stepWithoutAlign, step, Read_unpad]
    cases r.Read <;> rfl
  | readVec buf =>
    simp only [stepWithoutAlign, step, ReadVec_unpad]
    cases r.ReadVec buf <;> rfl

theorem run_unpad [Inhabited T] :
    ∀ (ops : List (Op T)) (r : RingBuffer T),
      runWithoutAlign r.unpad ops = (run r ops).bind fun p => .done (p.1.unpad, p.2) := by
  intro ops
  induction ops with
  | nil => intro r; rfl
  | cons op ops ih =>
    intro r
    simp only [runWithoutAlign, run, step_unpad]
    cases hs : step r op with
    | done a =>
      simp only [Outcome.bind, ih]
      cases run a.1 ops <;> rfl
    | panic => rfl
    | outOfFuel => rfl

/-- C12: for every capacity and every sequence of `Write`, `Read` and `ReadVec` calls,
the run on `NewRingBufferWithoutAlign(c)` ends as the run on `NewRingBuffer(c)` does
(a return, or a panic at the same call), with the same value returned by every
call, the same content of every `buf`, and the same `cap`, `mask`, cursors and
slots at the end; the sequence being arbitrary, this holds after every call. -/
theorem C12_layouts_agree [Inhabited T] (c : Int) (ops : List (Op T)) :
    runFreshWithoutAlign c ops = (runFresh c ops).bind fun p => .done (p.1.unpad, p.2) := by
  unfold runFreshWithoutAlign runFresh NewRingBufferWithoutAlign NewRingBuffer
  by_cases hc : c < 0
  · simp only [hc, if_true]; rfl
  · simp only [hc, if_false, Outcome.bind]
    exact run_unpad ops ⟨uint32 c, uint32 (c - 1), 0, 0, List.replicate c.toNat none⟩

/-! ## The constructors test nothing about the capacity -/

/-- What `NewRingBuffer(c)` returns for `2 <= c < 2^32`. -/
theorem NewRingBuffer_small (c : Int) (h2 : 2 ≤ c) (hlt : c < 2 ^ 32) :
    (NewRingBuffer c : Outcome (RingBuffer T))
      = .done ⟨c.toNat, c.toNat - 1, 0, 0, List.replicate c.toNat none⟩ := by
  have hn : ¬ c < 0 := by omega
  have hu : uint32 c = c.toNat := by unfold uint32; omega
  have hm : uint32 (c - 1) = c.toNat - 1 := by unfold uint32; omega
  unfold NewRingBuffer
  rw [if_neg hn, hu, hm]

/-- On a fresh buffer with `n >= 2` slots, `cap = n` and `mask = n - 1`, whatever `n`
is, the first `Write` stores its value at index `1 & (n - 1)` and returns true. -/
theorem Write_fresh (n : Nat) (h2 : 2 ≤ n) (hlt : n < 2 ^ 32) (v : T) :
    (⟨n, n - 1, 0, 0, List.replicate n none⟩ : RingBuffer T).Write v
      = .done (⟨n, n - 1, 1, 0, (List.replicate n none).set (1 &&& (n - 1)) (some v)⟩, true) := by
  have hs : sub32 n 1 = n - 1 := sub32_of_le hlt (by omega)
  have h0 : sub32 0 0 = 0 := by unfold sub32; omega
  have ha : add32 0 1 = 1 := by unfold add32; omega
  have hidx : 1 &&& (n - 1) < n := by
    have := @Nat.and_le_right 1 (n - 1)
    omega
  have hslot : (List.replicate n (none : Option T))[1 &&& (n - 1)]? = some none := by
    rw [List.getElem?_replicate, if_pos hidx]
  have hf : ¬ (0 ≥ n - 1) := by omega
  simp only [RingBuffer.Write, RingBuffer.isFull, CompareAndSwapUint32, hs, h0, ha, hslot,
    decide_eq_true_eq, hf, if_false, if_true]

/-- After that `Write`, `Read` returns its value and true. -/
theorem Read_fresh [Inhabited T] (n : Nat) (h2 : 2 ≤ n) (v : T) :
    (⟨n, n - 1, 1, 0, (List.replicate n none).set (1 &&& (n - 1)) (some v)⟩ : RingBuffer T).Read
      = .done (⟨n, n - 1, 1, 1, (List.replicate n none).set (1 &&& (n - 1)) (some v)⟩,
          v, true) := by
  have ha : add32 0 1 = 1 := by unfold add32; omega
  have hidx : 1 &&& (n - 1) < n := by
    have := @Nat.and_le_right 1 (n - 1)
    omega
  have hslot : ((List.replicate n (none : Option T)).set (1 &&& (n - 1)) (some v))[1 &&& (n - 1)]?
      = some (some v) := by
    rw [List.getElem?_set, if_pos rfl, List.length_replicate, if_pos hidx]
  have he : (decide ((1 : Nat) = 0) || decide ((1 : Nat) < 0)) = false := by decide
  simp only [RingBuffer.Read, RingBuffer.isEmpty, CompareAndSwapUint32, ha, hslot, he,
    Bool.false_eq_true, if_false, if_true]

/-- C5, counterexample: `NewRingBuffer(3)` and `NewRingBufferWithoutAlign(3)` return
a buffer (cap 3, mask 2, three empty slots) instead of failing, and the buffer is
usable: a `Write` followed by a `Read` hands the value over. -/
theorem C5_capacity_three_accepted :
    (NewRingBuffer 3 : Outcome (RingBuffer Nat)) = .done ⟨3, 2, 0, 0, [none, none, none]⟩ ∧
      (NewRingBufferWithoutAlign 3 : Outcome (RingBufferWithoutAlign Nat))
        = .done ⟨3, 2, 0, 0, [none, none, none]⟩ ∧
      runFresh 3 [.write 7, .read]
        = .done (⟨3, 2, 1, 1, [some 7, none, none]⟩, [.write 7 true, .read 7 true]) := by
  decide

/-- C5, amended: a capacity that is not a power of two is not rejected. For every
capacity `c` with `2 <= c < 2^32`, a power of two or not, `NewRingBuffer(c)` and
`NewRingBufferWithoutAlign(c)` return a buffer with `cap = c`, `mask = c - 1`, both
cursors 0 and `c` empty slots, and that buffer is usable: `Write(v)` returns true
and a following `Read` returns `v` and true. -/
theorem C5_small_capacity_accepted [Inhabited T] (c : Int) (h2 : 2 ≤ c) (hlt : c < 2 ^ 32)
    (v : T) :
    (NewRingBuffer c : Outcome (RingBuffer T))
        = .done ⟨c.toNat, c.toNat - 1, 0, 0, List.replicate c.toNat none⟩ ∧
      (NewRingBufferWithoutAlign c : Outcome (RingBufferWithoutAlign T))
        = .done ⟨c.toNat, c.toNat - 1, 0, 0, List.replicate c.toNat none⟩ ∧
      runFresh c [.write v, .read]
        = .done (⟨c.toNat, c.toNat - 1, 1, 1,
            (List.replicate c.toNat none).set (1 &&& (c.toNat - 1)) (some v)⟩,
          [.write v true, .read v true]) ∧
      runFreshWithoutAlign c [.write v, .read]
        = .done (⟨c.toNat, c.toNat - 1, 1, 1,
            (List.replicate c.toNat none).set (1 &&& (c.toNat - 1)) (some v)⟩,
          [.write v true, .read v true]) := by
  have hn : ¬ c < 0 := by omega
  have hu : uint32 c = c.toNat := by unfold uint32; omega
  have hm : uint32 (c - 1) = c.toNat - 1 := by unfold uint32; omega
  have h0 := NewRingBuffer_small (T := T) c h2 hlt
  have hrun : run (⟨c.toNat, c.toNat - 1, 0, 0, List.replicate c.toNat none⟩ : RingBuffer T)
      [.write v, .read]
      = .done (⟨c.toNat, c.toNat - 1, 1, 1,
          (List.replicate c.toNat none).set (1 &&& (c.toNat - 1)) (some v)⟩,
        [.write v true, .read v true]) :=
    run_cons_done (step_write_done (Write_fresh c.toNat (by omega) (by omega) v))
      (run_cons_done (step_read_done (Read_fresh c.toNat (by omega) v)) (run_nil _))
  refine ⟨h0, ?_, ?_, ?_⟩
  · unfold NewRingBufferWithoutAlign
    rw [if_neg hn, hu, hm]
  · rw [runFresh_done _ h0]
    exact hrun
  · unfold runFreshWithoutAlign NewRingBufferWithoutAlign
    rw [if_neg hn, hu, hm]
    have h := run_unpad [Op.write v, Op.read]
      (⟨c.toNat, c.toNat - 1, 0, 0, List.replicate c.toNat none⟩ : RingBuffer T)
    rw [hrun] at h
    exact h

/-- Witness of C5 (amended): capacity 6, which is not a power of two. -/
theorem C5_small_capacity_accepted_witness :
    (2 : Int) ≤ 6 ∧ (6 : Int) < 2 ^ 32 ∧
      (NewRingBuffer 6 : Outcome (RingBuffer Nat))
        = .done ⟨6, 5, 0, 0, [none, none, none, none, none, none]⟩ ∧
      runFresh 6 [.write 7, .read]
        = .done (⟨6, 5, 1, 1, [none, some 7, none, none, none, none]⟩,
            [.write 7 true, .read 7 true]) ∧
      runFreshWithoutAlign 6 [.write 7, .read]
        = .done (⟨6, 5, 1, 1, [none, some 7, none, none, none, none]⟩,
            [.write 7 true, .read 7 true]) :=
  have h := C5_small_capacity_accepted (6 : Int) (by decide) (by decide) (7 : Nat)
  ⟨by decide, by decide, h.1, h.2.2.1, h.2.2.2⟩

/-! ## Cursors and failed calls in an arbitrary state -/

/-- While the write cursor loaded is below `2^32 - 1`, the loop of `ReadVec` ends
with its cursor between the start and `oldWrite + 1`. -/
theorem ReadVecLoop_cursor (mask oldWrite oldRead : Nat) (hw : oldWrite < 2 ^ 32 - 1) :
    ∀ (fuel cur : Nat) (data : List (Option T)) (buf : List T) (cur1 : Nat)
      (data1 : List (Option T)) (buf1 : List T), cur ≤ oldWrite + 1 →
      ReadVecLoop mask oldWrite oldRead fuel cur data buf = .done (cur1, data1, buf1) →
      cur ≤ cur1 ∧ cur1 ≤ oldWrite + 1 := by
  intro fuel
  induction fuel with
  | zero =>
    intro cur data buf cur1 data1 buf1 _ h
    simp [ReadVecLoop] at h
  | succ fuel ih =>
    intro cur data buf cur1 data1 buf1 hcur h
    unfold ReadVecLoop at h
    split at h
    · rename_i hle
      split at h
      · simp at h
      · simp only [Outcome.done.injEq, Prod.mk.injEq] at h
        omega
      · split at h
        · have hadd : add32 cur 1 = cur + 1 := add32_of_lt (by omega)
          rw [hadd] at h
          have := ih _ _ _ _ _ _ (by omega) h
          omega
        · simp at h
    · simp only [Outcome.done.injEq, Prod.mk.injEq] at h
      omega

/-- With every slot index in range and room in `buf` for `oldWrite - oldRead`
values, the loop of `ReadVec` does not panic. -/
theorem ReadVecLoop_ne_panic (mask oldWrite oldRead : Nat) (hw : oldWrite < 2 ^ 32 - 1) :
    ∀ (fuel cur : Nat) (data : List (Option T)) (buf : List T), oldRead < cur →
      mask < data.length → oldWrite - oldRead ≤ buf.length →
      ReadVecLoop mask oldWrite oldRead fuel cur data buf ≠ .panic := by
  intro fuel
  induction fuel with
  | zero => intro cur data buf _ _ _; simp [ReadVecLoop]
  | succ fuel ih =>
    intro cur data buf hcur hmask hbuf
    unfold ReadVecLoop
    split
    · rename_i hle
      have hidx : cur &&& mask < data.length := by
        have := @Nat.and_le_right cur mask
        omega
      have hsub : sub32 (sub32 cur oldRead) 1 = cur - oldRead - 1 := by
        unfold sub32; omega
      rw [List.getElem?_eq_getElem hidx]
      split
      · rename_i h; simp at h
      · simp
      · rw [hsub, if_pos (by omega), add32_of_lt (by omega)]
        exact ih _ _ _ (by omega) (by simpa using hmask) (by simpa using hbuf)
    · simp

/-- C13: in every state whose write cursor is below `2^32 - 1`, `Write` leaves the
read cursor unchanged and the write cursor unchanged or one higher; `Read` leaves
the write cursor unchanged and the read cursor unchanged or one higher; `ReadVec`
leaves the write cursor unchanged and raises the read cursor by exactly the count
it returns. The three calls do return when every slot index is in range
(`mask < len(data)`) and `buf` has room for `write - read` values. -/
theorem C13_cursors_forward [Inhabited T] (r : RingBuffer T) (hw : r.write < 2 ^ 32 - 1)
    (value : T) (buf : List T) :
    (∀ r1 ok, r.Write value = .done (r1, ok) →
      r1.read = r.read ∧ (r1.write = r.write ∨ r1.write = r.write + 1)) ∧
    (∀ r1 v ok, r.Read = .done (r1, v, ok) →
      r1.write = r.write ∧ (r1.read = r.read ∨ r1.read = r.read + 1)) ∧
    (∀ r1 buf1 n, r.ReadVec buf = .done (r1, buf1, n) →
      r1.write = r.write ∧ r1.read = r.read + n) ∧
    (r.mask < r.data.length → r.write - r.read ≤ buf.length →
      (∃ r1 ok, r.Write value = .done (r1, ok)) ∧ (∃ r1 v ok, r.Read = .done (r1, v, ok)) ∧
      ∃ r1 buf1 n, r.ReadVec buf = .done (r1, buf1, n)) := by
  refine ⟨?_, ?_, ?_, ?_⟩
  · intro r1 ok h
    unfold RingBuffer.Write at h
    simp only [CompareAndSwapUint32, if_true] at h
    split at h
    · simp only [Outcome.done.injEq, Prod.mk.injEq] at h
      obtain ⟨rfl, -⟩ := h
      exact ⟨rfl, Or.inl rfl⟩
    · split at h
      · simp at h
      · simp only [Outcome.done.injEq, Prod.mk.injEq] at h
        obtain ⟨rfl, -⟩ := h
        exact ⟨rfl, Or.inl rfl⟩
      · simp only [Outcome.done.injEq, Prod.mk.injEq] at h
        obtain ⟨rfl, -⟩ := h
        exact ⟨rfl, Or.inr (add32_of_lt (by omega))⟩
  · intro r1 v ok h
    unfold RingBuffer.Read at h
    simp only [CompareAndSwapUint32, if_true] at h
    split at h
    · simp only [Outcome.done.injEq, Prod.mk.injEq] at h
      obtain ⟨rfl, -⟩ := h
      exact ⟨rfl, Or.inl rfl⟩
    · rename_i hne
      have hlt : r.read < r.write := by
        simp [RingBuffer.isEmpty] at hne; omega
      split at h
      · simp at h
      · simp only [Outcome.done.injEq, Prod.mk.injEq] at h
        obtain ⟨rfl, -⟩ := h
        exact ⟨rfl, Or.inl rfl⟩
      · simp only [Outcome.done.injEq, Prod.mk.injEq] at h
        obtain ⟨rfl, -⟩ := h
        exact ⟨rfl, Or.inr (add32_of_lt (by omega))⟩
  · intro r1 buf1 n h
    by_cases he : r.isEmpty r.write r.read = true
    · rw [ReadVec_of_empty buf he] at h
      simp only [Outcome.done.injEq, Prod.mk.injEq] at h
      obtain ⟨rfl, -, rfl⟩ := h
      exact ⟨rfl, rfl⟩
    · have he1 : r.isEmpty r.write r.read = false := by simpa using he
      have hlt : r.read < r.write := by
        simp [RingBuffer.isEmpty] at he1; omega
      cases hL : ReadVecLoop r.mask r.write r.read (r.data.length + 1) (add32 r.read 1)
          r.data buf with
      | done a =>
        obtain ⟨cur, data, buf2⟩ := a
        rw [ReadVec_of_loop he1 hL] at h
        simp only [Outcome.done.injEq, Prod.mk.injEq] at h
        obtain ⟨rfl, -, rfl⟩ := h
        rw [add32_of_lt (by omega)] at hL
        have hb := ReadVecLoop_cursor r.mask r.write r.read hw _ _ _ _ _ _ _ (by omega) hL
        refine ⟨rfl, ?_⟩
        show sub32 cur 1 = r.read + sub32 (sub32 cur r.read) 1
        unfold sub32; omega
      | panic =>
        unfold RingBuffer.ReadVec at h
        simp only [he1, hL] at h
        simp at h
      | outOfFuel =>
        unfold RingBuffer.ReadVec at h
        simp only [he1, hL] at h
        simp at h
  · intro hmask hbuf
    have hidx : ∀ x, x &&& r.mask < r.data.length := by
      intro x
      have := @Nat.and_le_right x r.mask
      omega
    refine ⟨?_, ?_, ?_⟩
    · unfold RingBuffer.Write
      simp only [CompareAndSwapUint32, if_true]
      split
      · exact ⟨_, _, rfl⟩
      · rw [List.getElem?_eq_getElem (hidx _)]
        split
        · rename_i h; simp at h
        · exact ⟨_, _, rfl⟩
        · exact ⟨_, _, rfl⟩
    · unfold RingBuffer.Read
      simp only [CompareAndSwapUint32, if_true]
      split
      · exact ⟨_, _, _, rfl⟩
      · rw [List.getElem?_eq_getElem (hidx _)]
        split
        · rename_i h; simp at h
        · exact ⟨_, _, _, rfl⟩
        · exact ⟨_, _, _, rfl⟩
    · by_cases he : r.isEmpty r.write r.read = true
      · exact ⟨_, _, _, ReadVec_of_empty buf he⟩
      · have he1 : r.isEmpty r.write r.read = false := by simpa using he
        have hlt : r.read < r.write := by
          simp [RingBuffer.isEmpty] at he1; omega
        cases hL : ReadVecLoop r.mask r.write r.read (r.data.length + 1) (add32 r.read 1)
            r.data buf with
        | done a =>
          obtain ⟨cur, data, buf2⟩ := a
          exact ⟨_, _, _, ReadVec_of_loop he1 hL⟩
        | panic =>
          exact absurd hL (ReadVecLoop_ne_panic r.mask r.write r.read hw _ _ _ _
            (by rw [add32_of_lt (by omega)]; omega) hmask hbuf)
        | outOfFuel =>
          exact absurd hL (ReadVecLoop_ne_outOfFuel r.mask r.write r.read _ _ _ _
            (Nat.lt_succ_of_le (List.countP_le_length (p := Option.isSome) (l := r.data))))

/-- Witness of C13: capacity 4, two elements published, each call evaluated. -/
theorem C13_cursors_forward_witness :
    (2 : Nat) < 2 ^ 32 - 1 ∧
    ((⟨4, 3, 2, 0, [none, some 5, some 6, none]⟩ : RingBuffer Nat).Write 9
        = .done (⟨4, 3, 3, 0, [none, some 5, some 6, some 9]⟩, true) ∧
      ((0 : Nat) = 0 ∧ ((3 : Nat) = 2 ∨ (3 : Nat) = 2 + 1))) ∧
    ((⟨4, 3, 2, 0, [none, some 5, some 6, none]⟩ : RingBuffer Nat).Read
        = .done (⟨4, 3, 2, 1, [none, some 5, some 6, none]⟩, 5, true) ∧
      ((2 : Nat) = 2 ∧ ((1 : Nat) = 0 ∨ (1 : Nat) = 0 + 1))) ∧
    ((⟨4, 3, 2, 0, [none, some 5, some 6, none]⟩ : RingBuffer Nat).ReadVec [0, 0, 0]
        = .done (⟨4, 3, 2, 2, [none, none, none, none]⟩, [5, 6, 0], 2) ∧
      ((2 : Nat) = 2 ∧ (2 : Nat) = 0 + 2)) :=
  have h := C13_cursors_forward (⟨4, 3, 2, 0, [none, some 5, some 6, none]⟩ : RingBuffer Nat)
    (by decide) 9 [0, 0, 0]
  ⟨by decide,
    ⟨by decide, h.1 ⟨4, 3, 3, 0, [none, some 5, some 6, some 9]⟩ true (by decide)⟩,
    ⟨by decide, h.2.1 ⟨4, 3, 2, 1, [none, some 5, some 6, none]⟩ 5 true (by decide)⟩,
    ⟨by decide, h.2.2.1 ⟨4, 3, 2, 2, [none, none, none, none]⟩ [5, 6, 0] 2 (by decide)⟩⟩

/-! ## Two concurrent `Write`s -/

/-- A call of `Write` run alone is `RingBuffer.Write`: after its five steps it has
returned what `Write` returns, on the buffer `Write` leaves. -/
theorem WriteCall_steps_alone (r : RingBuffer T) (value : T) :
    WriteCall.steps value 5 (r, .start) =
      match r.Write value with
      | .done (r1, ok) => (r1, .returned ok)
      | _ => (r, .panicked) := by
  by_cases hf : r.isFull r.write r.read = true
  · simp only [WriteCall.steps, WriteCall.step, RingBuffer.Write, hf, if_true]
  · have hf1 : r.isFull r.write r.read = false := by simpa using hf
    cases hs : r.data[add32 r.write 1 &&& r.mask]? with
    | none =>
      simp only [WriteCall.steps, WriteCall.step, RingBuffer.Write, hf1, Bool.false_eq_true,
        if_false, hs]
    | some o =>
      cases o with
      | none =>
        simp only [WriteCall.steps, WriteCall.step, RingBuffer.Write, hf1, Bool.false_eq_true,
          if_false, hs, CompareAndSwapUint32, if_true]
      | some x =>
        simp only [WriteCall.steps, WriteCall.step, RingBuffer.Write, hf1, Bool.false_eq_true,
          if_false, hs]

/-- C14, counterexample: on a full buffer of capacity 4, two `Write` calls that both
loaded the write cursor 3 both return false, here with their steps alternating. -/
theorem C14_full_buffer_both_fail :
    Race.run 8 9
        ⟨⟨4, 3, 3, 0, [none, some 1, some 2, some 3]⟩, .loadedWrite 3, .loadedWrite 3⟩
        [true, false, true, false, true, false, true, false]
      = ⟨⟨4, 3, 3, 0, [none, some 1, some 2, some 3]⟩, .returned false, .returned false⟩ := by
  decide

/-- A step of the call `a` keeps the invariant of the race. -/
theorem RaceInv_step_a (r0 : RingBuffer T) (va vb : T)
    (hnf : r0.isFull r0.write r0.read = false)
    (hslot : r0.data[add32 r0.write 1 &&& r0.mask]? = some none)
    (r : RingBuffer T) (a b : WriteCall) (hI : RaceInv r0 va vb ⟨r, a, b⟩) :
    RaceInv r0 va vb ⟨(a.step r va).1, (a.step r va).2, b⟩ := by
  have hI0 := hI
  obtain ⟨hcap, hmask, hread, hlen, oka, okb, one, wnone, wsome, dnone, da, db, la, lb⟩ := hI
  simp only at hcap hmask hread hlen oka okb one wnone wsome dnone da db la lb
  have hidx : add32 r0.write 1 &&& r0.mask < r0.data.length := by
    by_contra hge
    rw [List.getElem?_eq_none (by omega)] at hslot
    simp at hslot
  have hne : add32 r0.write 1 ≠ r0.write := by unfold add32; omega
  rcases oka with h | h | h | h | h | h <;> subst h
  · -- the load of `r.read`
    simp only [WriteCall.step, hread]
    exact
      { hcap := hcap, hmask := hmask, hread := hread, hlen := hlen
        oka := Or.inr (Or.inl rfl)
        okb := okb
        one := fun h => Bool.noConfusion h.1
        wnone := fun _ hb => wnone rfl hb
        wsome := fun h => wsome (h.elim (fun e => Bool.noConfusion e) Or.inr)
        dnone := fun _ hb => dnone (fun e => by cases e) hb
        da := fun e => by cases e
        db := db
        la := fun e => by cases e
        lb := fun e => Bool.noConfusion (lb e) }
  · -- `isFull`, the read of the slot and the test `elem != nil`
    have hf : r.isFull r0.write r0.read = false := by
      simp only [RingBuffer.isFull, hcap]
      simpa [RingBuffer.isFull] using hnf
    simp only [WriteCall.step, hf, Bool.false_eq_true, if_false, hmask]
    by_cases hb : b = .returned true
    · have hd := db hb
      have hs : r.data[add32 r0.write 1 &&& r0.mask]? = some (some vb) := by
        rw [hd, List.getElem?_set, if_pos rfl, if_pos hidx]
      simp only [hs]
      exact
        { hcap := hcap, hmask := hmask, hread := hread, hlen := hlen
          oka := Or.inr (Or.inr (Or.inr (Or.inr (Or.inr rfl))))
          okb := okb
          one := fun h => Bool.noConfusion h.1
          wnone := fun _ hb1 => wnone rfl hb1
          wsome := fun h => wsome (h.elim (fun e => Bool.noConfusion e) Or.inr)
          dnone := fun _ hb1 => absurd hb hb1
          da := fun e => by cases e
          db := db
          la := fun _ => by rw [hb]; rfl
          lb := fun e => Bool.noConfusion (lb e) }
    · have hd := dnone (fun e => by cases e) hb
      have hs : r.data[add32 r0.write 1 &&& r0.mask]? = some none := by
        rw [hd]; exact hslot
      simp only [hs]
      exact
        { hcap := hcap, hmask := hmask, hread := hread, hlen := hlen
          oka := Or.inr (Or.inr (Or.inl rfl))
          okb := okb
          one := fun h => Bool.noConfusion h.1
          wnone := fun _ hb1 => wnone rfl hb1
          wsome := fun h => wsome (h.elim (fun e => Bool.noConfusion e) Or.inr)
          dnone := fun _ hb1 => dnone (fun e => by cases e) hb1
          da := fun e => by cases e
          db := db
          la := fun e => by cases e
          lb := fun e => Bool.noConfusion (lb e) }
  · -- the compare-and-swap
    by_cases hbw : b.won = true
    · have hwr : r.write = add32 r0.write 1 := wsome (Or.inr hbw)
      have hcas : CompareAndSwapUint32 r.write r0.write (add32 r0.write 1)
          = (r.write, false) := by
        simp only [CompareAndSwapUint32, hwr, if_neg hne]
      simp only [WriteCall.step, hcas]
      exact
        { hcap := hcap, hmask := hmask, hread := hread, hlen := hlen
          oka := Or.inr (Or.inr (Or.inr (Or.inr (Or.inr rfl))))
          okb := okb
          one := fun h => Bool.noConfusion h.1
          wnone := fun _ hb1 => wnone rfl hb1
          wsome := fun h => wsome (h.elim (fun e => Bool.noConfusion e) Or.inr)
          dnone := fun _ hb1 => dnone (fun e => by cases e) hb1
          da := fun e => by cases e
          db := db
          la := fun _ => hbw
          lb := fun e => Bool.noConfusion (lb e) }
    · have hbw1 : b.won = false := by simpa using hbw
      have hwr : r.write = r0.write := wnone rfl hbw1
      have hcas : CompareAndSwapUint32 r.write r0.write (add32 r0.write 1)
          = (add32 r0.write 1, true) := by
        simp only [CompareAndSwapUint32, hwr, if_true]
      simp only [WriteCall.step, hcas]
      exact
        { hcap := hcap, hmask := hmask, hread := hread, hlen := hlen
          oka := Or.inr (Or.inr (Or.inr (Or.inl rfl)))
          okb := okb
          one := fun h => by rw [hbw1] at h; exact Bool.noConfusion h.2
          wnone := fun h _ => Bool.noConfusion h
          wsome := fun _ => rfl
          dnone := fun _ h => dnone (fun e => by cases e) h
          da := fun e => by cases e
          db := db
          la := fun e => by cases e
          lb := fun _ => rfl }
  · -- the store to the slot
    have hbw : b.won = false := by
      cases hb : b.won with
      | false => rfl
      | true => exact absurd ⟨rfl, hb⟩ one
    have hbt : b ≠ .returned true := by
      intro h; rw [h] at hbw; exact Bool.noConfusion hbw
    have hd := dnone (fun e => by cases e) hbt
    simp only [WriteCall.step, hmask, hd]
    exact
      { hcap := hcap, hmask := rfl, hread := hread
        hlen := List.length_set _ _ _
        oka := Or.inr (Or.inr (Or.inr (Or.inr (Or.inl rfl))))
        okb := okb
        one := fun h => by rw [hbw] at h; exact Bool.noConfusion h.2
        wnone := fun h _ => Bool.noConfusion h
        wsome := fun _ => wsome (Or.inl rfl)
        dnone := fun h _ => absurd rfl h
        da := fun _ => rfl
        db := fun e => absurd e hbt
        la := fun e => by cases e
        lb := fun _ => rfl }
  · simp only [WriteCall.step]
    exact hI0
  · simp only [WriteCall.step]
    exact hI0

/-- The invariant with the two calls exchanged. -/
theorem RaceInv_swap (r0 : RingBuffer T) (va vb : T) (r : RingBuffer T) (a b : WriteCall)
    (hI : RaceInv r0 va vb ⟨r, a, b⟩) : RaceInv r0 vb va ⟨r, b, a⟩ :=
  { hcap := hI.hcap, hmask := hI.hmask, hread := hI.hread, hlen := hI.hlen
    oka := hI.okb
    okb := hI.oka
    one := fun h => hI.one ⟨h.2, h.1⟩
    wnone := fun h1 h2 => hI.wnone h2 h1
    wsome := fun h => hI.wsome h.symm
    dnone := fun h1 h2 => hI.dnone h2 h1
    da := hI.db
    db := hI.da
    la := hI.lb
    lb := hI.la }

/-- Every step of the race keeps the invariant. -/
theorem RaceInv_step (r0 : RingBuffer T) (va vb : T)
    (hnf : r0.isFull r0.write r0.read = false)
    (hslot : r0.data[add32 r0.write 1 &&& r0.mask]? = some none)
    (s : Race T) (hI : RaceInv r0 va vb s) (first : Bool) :
    RaceInv r0 va vb (Race.step va vb s first) := by
  obtain ⟨r, a, b⟩ := s
  cases first with
  | true =>
    simp only [Race.step, if_true]
    exact RaceInv_step_a r0 va vb hnf hslot r a b hI
  | false =>
    simp only [Race.step, Bool.false_eq_true, if_false]
    exact RaceInv_swap r0 vb va _ _ _
      (RaceInv_step_a r0 vb va hnf hslot r b a (RaceInv_swap r0 va vb r a b hI))

theorem RaceInv_run (r0 : RingBuffer T) (va vb : T)
    (hnf : r0.isFull r0.write r0.read = false)
    (hslot : r0.data[add32 r0.write 1 &&& r0.mask]? = some none) :
    ∀ (sched : List Bool) (s : Race T), RaceInv r0 va vb s →
      RaceInv r0 va vb (Race.run va vb s sched) := by
  intro sched
  induction sched with
  | nil => intro s hI; exact hI
  | cons first sched ih =>
    intro s hI
    exact ih _ (RaceInv_step r0 va vb hnf hslot s hI first)

/-- Every step of a call lowers the number of steps it has to make. -/
theorem WriteCall_todo_step (r : RingBuffer T) (v : T) (c : WriteCall) :
    (c.step r v).2.todo ≤ c.todo - 1 := by
  cases c with
  | start => simp [WriteCall.step, WriteCall.todo]
  | loadedWrite w => simp [WriteCall.step, WriteCall.todo]
  | loadedRead w rd =>
    simp only [WriteCall.step]
    split
    · simp [WriteCall.todo]
    · split <;> simp [WriteCall.todo]
  | sawEmpty w =>
    simp only [WriteCall.step, CompareAndSwapUint32]
    split <;> simp [WriteCall.todo]
  | swapped w => simp [WriteCall.step, WriteCall.todo]
  | returned ok => simp [WriteCall.step, WriteCall.todo]
  | panicked => simp [WriteCall.step, WriteCall.todo]

/-- A call scheduled `n` times has at most `todo - n` steps left. -/
theorem Race_run_todo (va vb : T) :
    ∀ (sched : List Bool) (s : Race T),
      (Race.run va vb s sched).a.todo ≤ s.a.todo - sched.count true ∧
      (Race.run va vb s sched).b.todo ≤ s.b.todo - sched.count false := by
  intro sched
  induction sched with
  | nil => intro s; simp [Race.run]
  | cons first sched ih =>
    intro s
    have h := ih (Race.step va vb s first)
    have ha := WriteCall_todo_step s.r va s.a
    have hb := WriteCall_todo_step s.r vb s.b
    cases first with
    | true =>
      simp only [Race.step, if_true] at h
      simp only [Race.run, List.foldl_cons, Race.step, if_true, List.count_cons_self,
        List.count_cons_of_ne (by decide : (false : Bool) ≠ true)] at h ⊢
      omega
    | false =>
      simp only [Race.step, Bool.false_eq_true, if_false] at h
      simp only [Race.run, List.foldl_cons, Race.step, Bool.false_eq_true, if_false,
        List.count_cons_self, List.count_cons_of_ne (by decide : (true : Bool) ≠ false)] at h ⊢
      omega

/-- C14, amended: two `Write` calls (of `va` and of `vb`) run concurrently on a buffer
that is not full and whose target slot `(write + 1) & mask` is empty, no other call
interfering, and both have loaded the same write cursor. Whatever the order in
which their remaining steps interleave (each call being given its four steps),
both return, exactly one of them returns true and the other false, the write
cursor has advanced by one, and the slot holds the value of the call that returned
true, every other slot being unchanged. -/
theorem C14_one_writer_wins (r0 : RingBuffer T) (va vb : T)
    (hnf : r0.isFull r0.write r0.read = false)
    (hslot : r0.data[add32 r0.write 1 &&& r0.mask]? = some none)
    (sched : List Bool) (ha : 4 ≤ sched.count true) (hb : 4 ≤ sched.count false) :
    ∃ s, Race.run va vb ⟨r0, .loadedWrite r0.write, .loadedWrite r0.write⟩ sched = s ∧
      s.r.write = add32 r0.write 1 ∧ s.r.read = r0.read ∧ s.r.cap = r0.cap ∧
      s.r.mask = r0.mask ∧
      ((s.a = .returned true ∧ s.b = .returned false ∧
          s.r.data = r0.data.set (add32 r0.write 1 &&& r0.mask) (some va) ∧
          s.r.data[add32 r0.write 1 &&& r0.mask]? = some (some va)) ∨
        (s.a = .returned false ∧ s.b = .returned true ∧
          s.r.data = r0.data.set (add32 r0.write 1 &&& r0.mask) (some vb) ∧
          s.r.data[add32 r0.write 1 &&& r0.mask]? = some (some vb))) := by
  have hidx : add32 r0.write 1 &&& r0.mask < r0.data.length := by
    by_contra hge
    rw [List.getElem?_eq_none (by omega)] at hslot
    simp at hslot
  have h0 : RaceInv r0 va vb ⟨r0, .loadedWrite r0.write, .loadedWrite r0.write⟩ :=
    { hcap := rfl, hmask := rfl, hread := rfl, hlen := rfl
      oka := Or.inl rfl
      okb := Or.inl rfl
      one := fun h => Bool.noConfusion h.1
      wnone := fun _ _ => rfl
      wsome := fun h => h.elim (fun e => Bool.noConfusion e) (fun e => Bool.noConfusion e)
      dnone := fun _ _ => rfl
      da := fun e => by cases e
      db := fun e => by cases e
      la := fun e => by cases e
      lb := fun e => by cases e }
  have hI := RaceInv_run r0 va vb hnf hslot sched _ h0
  have ht := Race_run_todo va vb sched ⟨r0, .loadedWrite r0.write, .loadedWrite r0.write⟩
  generalize Race.run va vb ⟨r0, .loadedWrite r0.write, .loadedWrite r0.write⟩ sched = s
    at hI ht
  have hta : s.a.todo ≤ 4 - sched.count true := ht.1
  have htb : s.b.todo ≤ 4 - sched.count false := ht.2
  have hta0 : s.a.todo = 0 := by omega
  have htb0 : s.b.todo = 0 := by omega
  have hra : s.a = .returned true ∨ s.a = .returned false := by
    rcases hI.oka with h | h | h | h | h | h
    · rw [h] at hta0; simp [WriteCall.todo] at hta0
    · rw [h] at hta0; simp [WriteCall.todo] at hta0
    · rw [h] at hta0; simp [WriteCall.todo] at hta0
    · rw [h] at hta0; simp [WriteCall.todo] at hta0
    · exact Or.inl h
    · exact Or.inr h
  have hrb : s.b = .returned true ∨ s.b = .returned false := by
    rcases hI.okb with h | h | h | h | h | h
    · rw [h] at htb0; simp [WriteCall.todo] at htb0
    · rw [h] at htb0; simp [WriteCall.todo] at htb0
    · rw [h] at htb0; simp [WriteCall.todo] at htb0
    · rw [h] at htb0; simp [WriteCall.todo] at htb0
    · exact Or.inl h
    · exact Or.inr h
  have hset : ∀ v : T, (r0.data.set (add32 r0.write 1 &&& r0.mask) (some v))[add32 r0.write 1
      &&& r0.mask]? = some (some v) := by
    intro v
    rw [List.getElem?_set, if_pos rfl, if_pos hidx]
  refine ⟨s, rfl, ?_, hI.hread, hI.hcap, hI.hmask, ?_⟩
  · rcases hra with h | h
    · exact hI.wsome (Or.inl (by rw [h]; rfl))
    · exact hI.wsome (Or.inr (hI.la h))
  · rcases hra with h1 | h1 <;> rcases hrb with h2 | h2
    · exact absurd ⟨by rw [h1]; rfl, by rw [h2]; rfl⟩ hI.one
    · exact Or.inl ⟨h1, h2, hI.da h1, by rw [hI.da h1]; exact hset va⟩
    · exact Or.inr ⟨h1, h2, hI.db h2, by rw [hI.db h2]; exact hset vb⟩
    · have := hI.la h1
      rw [h2] at this
      exact Bool.noConfusion this

/-- Witness of C14 (amended): an empty buffer of capacity 4; the call `b` reads the
slot before the call `a` swaps, then loses the compare-and-swap. -/
theorem C14_one_writer_wins_witness :
    (⟨4, 3, 0, 0, [none, none, none, none]⟩ : RingBuffer Nat).isFull 0 0 = false ∧
      ([none, none, none, none] : List (Option Nat))[add32 0 1 &&& 3]? = some none ∧
      4 ≤ [true, false, false, true, true, false, true, false].count true ∧
      4 ≤ [true, false, false, true, true, false, true, false].count false ∧
      Race.run 8 9 ⟨⟨4, 3, 0, 0, [none, none, none, none]⟩, .loadedWrite 0, .loadedWrite 0⟩
          [true, false, false, true, true, false, true, false]
        = ⟨⟨4, 3, 1, 0, [none, some 8, none, none]⟩, .returned true, .returned false⟩ ∧
      ∃ s, Race.run 8 9
          ⟨⟨4, 3, 0, 0, [none, none, none, none]⟩, .loadedWrite 0, .loadedWrite 0⟩
          [true, false, false, true, true, false, true, false] = s ∧
        s.r.write = add32 0 1 ∧ s.r.read = 0 ∧ s.r.cap = 4 ∧ s.r.mask = 3 ∧
        ((s.a = .returned true ∧ s.b = .returned false ∧
            s.r.data = [none, none, none, none].set (add32 0 1 &&& 3) (some 8) ∧
            s.r.data[add32 0 1 &&& 3]? = some (some 8)) ∨
          (s.a = .returned false ∧ s.b = .returned true ∧
            s.r.data = [none, none, none, none].set (add32 0 1 &&& 3) (some 9) ∧
            s.r.data[add32 0 1 &&& 3]? = some (some 9))) :=
  ⟨by decide, by decide, by decide, by decide, by decide,
    C14_one_writer_wins (⟨4, 3, 0, 0, [none, none, none, none]⟩ : RingBuffer Nat) 8 9
      (by decide) (by decide) [true, false, false, true, true, false, true, false]
      (by decide) (by decide)⟩

/-! ## What the loop of `ReadVec` did, from its result -/

theorem set_none_occupied {data : List (Option T)} {j i : Nat} {v : T}
    (h : (data.set j none)[i]? = some (some v)) : data[i]? = some (some v) := by
  rw [List.getElem?_set] at h
  by_cases hji : j = i
  · rw [if_pos hji] at h
    by_cases hl : j < data.length
    · rw [if_pos hl] at h; simp at h
    · rw [if_neg hl] at h; simp at h
  · rw [if_neg hji] at h; exact h

/-- A run of the loop of `ReadVec` that returned made some number `k` of copies:
it ended at the cursor `cur + k` (on `uint32`), every copy emptied one occupied
slot, each of the `k` cursors passed the test `cur <= oldWrite`, had its index
inside `buf` and met an occupied slot, only the slots of those cursors changed, no
slot became occupied, and the loop stopped either past `oldWrite` or on an empty
slot. -/
theorem ReadVecLoop_trace (mask oldWrite oldRead : Nat) :
    ∀ (fuel cur : Nat) (data : List (Option T)) (buf : List T) (cur1 : Nat)
      (data1 : List (Option T)) (buf1 : List T), cur < 2 ^ 32 →
      ReadVecLoop mask oldWrite oldRead fuel cur data buf = .done (cur1, data1, buf1) →
      ∃ k, cur1 = (cur + k) % 2 ^ 32 ∧
        (k = 0 → data1 = data ∧ buf1 = buf) ∧
        k + data1.countP Option.isSome = data.countP Option.isSome ∧
        data1.length = data.length ∧
        (∀ t, t < k → (cur + t) % 2 ^ 32 ≤ oldWrite) ∧
        (∀ t, t < k → sub32 (sub32 ((cur + t) % 2 ^ 32) oldRead) 1 < buf.length) ∧
        (∀ idx : Nat, data1[idx]? ≠ data[idx]? →
          ∃ t, t < k ∧ idx = ((cur + t) % 2 ^ 32) &&& mask) ∧
        (cur1 ≤ oldWrite → data1[cur1 &&& mask]? = some none) ∧
        (∀ t, t < k → ∃ v, data[((cur + t) % 2 ^ 32) &&& mask]? = some (some v)) ∧
        (∀ (i : Nat) (v : T), data1[i]? = some (some v) → data[i]? = some (some v)) := by
  intro fuel
  induction fuel with
  | zero =>
    intro cur data buf cur1 data1 buf1 _ h
    simp [ReadVecLoop] at h
  | succ fuel ih =>
    intro cur data buf cur1 data1 buf1 hcur h
    rw [ReadVecLoop] at h
    by_cases hle : cur ≤ oldWrite
    · rw [if_pos hle] at h
      cases hs : data[cur &&& mask]? with
      | none => simp only [hs] at h; simp at h
      | some o =>
        cases o with
        | none =>
          simp only [hs, Outcome.done.injEq, Prod.mk.injEq] at h
          obtain ⟨rfl, rfl, rfl⟩ := h
          exact ⟨0, by omega, fun _ => ⟨rfl, rfl⟩, by omega, rfl, by intro t ht; omega,
            by intro t ht; omega, fun idx hne => absurd rfl hne, fun _ => hs,
            by intro t ht; omega, fun _ _ h => h⟩
        | some v =>
          simp only [hs] at h
          by_cases hb : sub32 (sub32 cur oldRead) 1 < buf.length
          · rw [if_pos hb] at h
            have hadd : add32 cur 1 < 2 ^ 32 := by unfold add32; omega
            obtain ⟨k, h1, -, h3, h4, h5, h6, h7, h8, h9, h10⟩ := ih _ _ _ _ _ _ hadd h
            have hc := countP_set_none data _ v hs
            have hshift : ∀ t, (add32 cur 1 + t) % 2 ^ 32 = (cur + (t + 1)) % 2 ^ 32 := by
              intro t; unfold add32; omega
            refine ⟨k + 1, ?_, by omega, by omega, by simpa using h4, ?_, ?_, ?_, h8, ?_,
              fun i w hw => set_none_occupied (h10 i w hw)⟩
            · rw [h1, hshift]
            · intro t ht
              cases t with
              | zero => rw [Nat.add_zero, Nat.mod_eq_of_lt hcur]; exact hle
              | succ t => rw [← hshift]; exact h5 t (by omega)
            · intro t ht
              cases t with
              | zero => rw [Nat.add_zero, Nat.mod_eq_of_lt hcur]; exact hb
              | succ t =>
                have := h6 t (by omega)
                rw [hshift, List.length_set] at this
                exact this
            · intro idx hne
              by_cases hc1 : data1[idx]? = (data.set (cur &&& mask) none)[idx]?
              · refine ⟨0, by omega, ?_⟩
                rw [Nat.add_zero, Nat.mod_eq_of_lt hcur]
                by_contra hidx
                apply hne
                rw [hc1, List.getElem?_set, if_neg (Ne.symm hidx)]
              · obtain ⟨t, ht, hidx⟩ := h7 idx hc1
                exact ⟨t + 1, by omega, by rw [← hshift]; exact hidx⟩
            · intro t ht
              cases t with
              | zero => rw [Nat.add_zero, Nat.mod_eq_of_lt hcur]; exact ⟨v, hs⟩
              | succ t =>
                obtain ⟨w, hw⟩ := h9 t (by omega)
                rw [hshift] at hw
                exact ⟨w, set_none_occupied hw⟩
          · rw [if_neg hb] at h; simp at h
    · rw [if_neg hle] at h
      simp only [Outcome.done.injEq, Prod.mk.injEq] at h
      obtain ⟨rfl, rfl, rfl⟩ := h
      exact ⟨0, by omega, fun _ => ⟨rfl, rfl⟩, by omega, rfl, by intro t ht; omega,
        by intro t ht; omega, fun idx hne => absurd rfl hne, fun h => absurd h hle,
        by intro t ht; omega, fun _ _ h => h⟩

/-- With every slot index in range and `2^32` entries in `buf`, the loop of `ReadVec`
does not panic, whatever the cursors. -/
theorem ReadVecLoop_ne_panic_of_big (mask oldWrite oldRead : Nat) :
    ∀ (fuel cur : Nat) (data : List (Option T)) (buf : List T),
      mask < data.length → 2 ^ 32 ≤ buf.length →
      ReadVecLoop mask oldWrite oldRead fuel cur data buf ≠ .panic := by
  intro fuel
  induction fuel with
  | zero => intro cur data buf _ _; simp [ReadVecLoop]
  | succ fuel ih =>
    intro cur data buf hmask hbuf
    rw [ReadVecLoop]
    by_cases hle : cur ≤ oldWrite
    · rw [if_pos hle]
      have hidx : cur &&& mask < data.length := by
        have := @Nat.and_le_right cur mask
        omega
      rw [List.getElem?_eq_getElem hidx]
      cases hs : data[cur &&& mask] with
      | none => simp
      | some v =>
        have hb : sub32 (sub32 cur oldRead) 1 < buf.length := by
          have := sub32_lt (sub32 cur oldRead) 1
          omega
        simp only [if_pos hb]
        exact ih _ _ _ (by simpa using hmask) (by simpa using hbuf)
    · rw [if_neg hle]; simp

/-- With `2^32` slots, all occupied, the write cursor at `2^32 - 1` and `2^32`
entries in `buf`, the loop of `ReadVec` goes once around the whole ring: `ReadVec`
returns 0 and leaves the read cursor where it was, after emptying the slots. -/
theorem ReadVec_full_lap (r : RingBuffer T) (buf : List T) (hmask : r.mask = 2 ^ 32 - 1)
    (hw : r.write = 2 ^ 32 - 1) (hrd : r.read < 2 ^ 32 - 1) (hlen : r.data.length = 2 ^ 32)
    (hall : ∀ i, i < 2 ^ 32 → ∃ v, r.data[i]? = some (some v))
    (hbuf : 2 ^ 32 ≤ buf.length) :
    ∃ r1 buf1, r.ReadVec buf = .done (r1, buf1, 0) ∧ r1.read = r.read ∧
      r1.data[r.read + 1]? = some none := by
  have he1 : r.isEmpty r.write r.read = false := by
    simp [RingBuffer.isEmpty]; omega
  have hadd : add32 r.read 1 = r.read + 1 := add32_of_lt (by omega)
  cases hL : ReadVecLoop r.mask r.write r.read (r.data.length + 1) (add32 r.read 1)
      r.data buf with
  | panic =>
    exact absurd hL (ReadVecLoop_ne_panic_of_big r.mask r.write r.read _ _ _ _ (by omega) hbuf)
  | outOfFuel =>
    exact absurd hL (ReadVecLoop_ne_outOfFuel r.mask r.write r.read _ _ _ _
      (Nat.lt_succ_of_le (List.countP_le_length (p := Option.isSome) (l := r.data))))
  | done a =>
    obtain ⟨cur1, data1, buf1⟩ := a
    have hL1 := hL
    rw [hadd] at hL1
    obtain ⟨k, h1, -, h3, h4, -, -, h7, h8, -, -⟩ :=
      ReadVecLoop_trace r.mask r.write r.read _ _ _ _ _ _ _ (by omega) hL1
    have hland : ∀ x, x &&& r.mask = x % 2 ^ 32 := by
      intro x; rw [hmask]; exact Nat.and_pow_two_sub_one_eq_mod x 32
    have hcur1 : cur1 < 2 ^ 32 := by omega
    have hstop := h8 (by omega)
    rw [hland, Nat.mod_eq_of_lt hcur1] at hstop
    obtain ⟨v, hv⟩ := hall cur1 hcur1
    obtain ⟨t, ht, hidx⟩ := h7 cur1 (by rw [hstop, hv]; simp)
    rw [hland] at hidx
    have hk : k ≤ 2 ^ 32 := by
      have := List.countP_le_length (p := Option.isSome) (l := r.data)
      omega
    have hkN : k = 2 ^ 32 := by omega
    have hc : cur1 = r.read + 1 := by omega
    refine ⟨{ r with read := r.read, data := data1 }, buf1, ?_, rfl, ?_⟩
    · rw [ReadVec_of_loop he1 hL, hc]
      have e1 : sub32 (r.read + 1) 1 = r.read := by unfold sub32; omega
      have e2 : sub32 (sub32 (r.read + 1) r.read) 1 = 0 := by unfold sub32; omega
      rw [e1, e2]
    · rw [← hc]; exact hstop

/-! ## Failed calls on a reached state -/

/-- Outside the reached states a `ReadVec` that returns 0 can have changed the
buffer. The state with the fields `NewRingBuffer(2^32)` gives (`cap = 0`,
`mask = 2^32 - 1`, `2^32` slots), every slot occupied, `write = 2^32 - 1` and
`read = 0` does not satisfy `RunInv`, so no run reaches it; there `ReadVec` with a
`buf` of `2^32` entries returns 0, yet the slot of cursor 1, occupied before the
call, is empty after it. -/
theorem ReadVec_zero_after_full_lap :
    ¬ RunInv (⟨0, 4294967295, 4294967295, 0, List.replicate 4294967296 (some 1)⟩ :
        RingBuffer Nat) ∧
    ∃ r1 buf1,
      (⟨0, 4294967295, 4294967295, 0, List.replicate 4294967296 (some 1)⟩ :
          RingBuffer Nat).ReadVec (List.replicate 4294967296 0) = .done (r1, buf1, 0) ∧
      r1.data[1]? = some none ∧
      (List.replicate 4294967296 (some 1) : List (Option Nat))[1]? = some (some 1) := by
  have hlen : (List.replicate 4294967296 (some 1) : List (Option Nat)).length = 2 ^ 32 := by
    rw [List.length_replicate]; norm_num
  have hall : ∀ i, i < 2 ^ 32 →
      ∃ v, (List.replicate 4294967296 (some 1) : List (Option Nat))[i]? = some (some v) := by
    intro i hi
    rw [List.getElem?_replicate, if_pos (by omega)]
    exact ⟨1, rfl⟩
  have hbuf : 2 ^ 32 ≤ (List.replicate 4294967296 (0 : Nat)).length := by
    rw [List.length_replicate]; norm_num
  constructor
  · rintro ⟨-, -, h | ⟨h, -⟩ | ⟨-, -, h | h⟩⟩
    · have h1 : (List.replicate 4294967296 (some 1) : List (Option Nat)).length < 2 ^ 32 := h
      omega
    · have h1 : (4294967295 : Nat) < 2 ^ 32 - 1 := h
      omega
    · obtain ⟨v, hv⟩ := hall 0 (by norm_num)
      exact h v hv
    · have h1 : (4294967295 : Nat) < 0 := h
      omega
  · obtain ⟨r1, buf1, hrun, -, hslot⟩ := ReadVec_full_lap
      (⟨0, 4294967295, 4294967295, 0, List.replicate 4294967296 (some 1)⟩ : RingBuffer Nat)
      (List.replicate 4294967296 0) (by norm_num) (by norm_num) (by norm_num) hlen hall hbuf
    refine ⟨r1, buf1, hrun, hslot, ?_⟩
    rw [List.getElem?_replicate, if_pos (by norm_num)]

/-- C16: in every state in which the slot at `(read + 1) & mask` is empty, whatever
the two cursors say, `Read` returns the zero value and `ok = false`, and `ReadVec`
returns 0; both leave the state and `buf` exactly as they were. -/
theorem C16_unpublished_slot_not_read [Inhabited T] (r : RingBuffer T) (hr : r.InRange)
    (hslot : r.data[(r.read + 1) &&& r.mask]? = some none) (buf : List T) :
    r.Read = .done (r, default, false) ∧ r.ReadVec buf = .done (r, buf, 0) := by
  obtain ⟨-, -, hw, -⟩ := hr
  by_cases he : r.isEmpty r.write r.read = true
  · exact ⟨by simp only [RingBuffer.Read, he, if_true], ReadVec_of_empty buf he⟩
  · have he1 : r.isEmpty r.write r.read = false := by simpa using he
    have hlt : r.read < r.write := by
      simp [RingBuffer.isEmpty] at he1; omega
    have hadd : add32 r.read 1 = r.read + 1 := add32_of_lt (by omega)
    constructor
    · simp only [RingBuffer.Read, he1, hadd, hslot, Bool.false_eq_true, if_false]
    · have hL : ReadVecLoop r.mask r.write r.read (r.data.length + 1) (add32 r.read 1)
          r.data buf = .done (r.read + 1, r.data, buf) := by
        rw [hadd]
        unfold ReadVecLoop
        rw [if_pos (by omega), hslot]
      rw [ReadVec_of_loop he1 hL]
      have h1 : sub32 (r.read + 1) 1 = r.read := by unfold sub32; omega
      have h2 : sub32 (sub32 (r.read + 1) r.read) 1 = 0 := by unfold sub32; omega
      rw [h1, h2]

/-- Witness of C16: the writer has advanced the write cursor to 2 but the slot of
cursor 2 is still empty. -/
theorem C16_unpublished_slot_not_read_witness :
    (⟨4, 3, 2, 1, [none, some 5, none, none]⟩ : RingBuffer Nat).Read
        = .done (⟨4, 3, 2, 1, [none, some 5, none, none]⟩, default, false) ∧
      (⟨4, 3, 2, 1, [none, some 5, none, none]⟩ : RingBuffer Nat).ReadVec [7, 8, 9]
        = .done (⟨4, 3, 2, 1, [none, some 5, none, none]⟩, [7, 8, 9], 0) :=
  C16_unpublished_slot_not_read ⟨4, 3, 2, 1, [none, some 5, none, none]⟩
    ⟨by decide, by decide, by decide, by decide⟩ (by decide) [7, 8, 9]

/-! ## `Write` and `Read` alone: `Read` never empties a slot -/

theorem countP_set_some (data : List (Option T)) :
    ∀ (i : Nat) (v : T), data[i]? = some none →
      (data.set i (some v)).countP Option.isSome = data.countP Option.isSome + 1 := by
  induction data with
  | nil => intro i v h; simp at h
  | cons a data ih =>
    intro i v h
    cases i with
    | zero =>
      simp only [List.getElem?_cons_zero, Option.some.injEq] at h
      subst h
      simp [List.countP_cons]
    | succ i =>
      simp only [List.getElem?_cons_succ] at h
      have := ih i v h
      simp only [List.set_cons_succ, List.countP_cons]
      omega

theorem Write_count {r : RingBuffer T} (hm : r.mask < r.data.length) (v : T) :
    ∃ r1 ok, r.Write v = .done (r1, ok) ∧ r1.mask = r.mask ∧
      r1.data.length = r.data.length ∧
      r1.data.countP Option.isSome = r.data.countP Option.isSome + (if ok then 1 else 0) := by
  have hidx : add32 r.write 1 &&& r.mask < r.data.length := by
    have := @Nat.and_le_right (add32 r.write 1) r.mask
    omega
  unfold RingBuffer.Write
  simp only [CompareAndSwapUint32, if_true]
  split
  · exact ⟨r, false, rfl, rfl, rfl, by simp⟩
  · cases hslot : r.data[add32 r.write 1 &&& r.mask]? with
    | none =>
      rw [List.getElem?_eq_getElem hidx] at hslot
      simp at hslot
    | some o =>
      cases o with
      | some x => exact ⟨r, false, rfl, rfl, rfl, by simp⟩
      | none =>
        exact ⟨_, true, rfl, rfl, by simp, by simpa using countP_set_some r.data _ v hslot⟩

theorem Read_count [Inhabited T] {r : RingBuffer T} (hm : r.mask < r.data.length) :
    ∃ r1 v ok, r.Read = .done (r1, v, ok) ∧ r1.mask = r.mask ∧ r1.data = r.data := by
  have hidx : add32 r.read 1 &&& r.mask < r.data.length := by
    have := @Nat.and_le_right (add32 r.read 1) r.mask
    omega
  unfold RingBuffer.Read
  simp only [CompareAndSwapUint32, if_true]
  split
  · exact ⟨r, default, false, rfl, rfl, rfl⟩
  · cases hslot : r.data[add32 r.read 1 &&& r.mask]? with
    | none =>
      rw [List.getElem?_eq_getElem hidx] at hslot
      simp at hslot
    | some o =>
      cases o with
      | none => exact ⟨r, default, false, rfl, rfl, rfl⟩
      | some x => exact ⟨_, x, true, rfl, rfl, rfl⟩

/-- A run of `Write`s and `Read`s returns, and the number of occupied slots grows by
the number of `Write`s that returned true. -/
theorem run_count [Inhabited T] :
    ∀ (ops : List (Op T)) (r : RingBuffer T), r.mask < r.data.length →
      (∀ buf, Op.readVec buf ∉ ops) →
      ∃ r1 es, run r ops = .done (r1, es) ∧ r1.mask = r.mask ∧
        r1.data.length = r.data.length ∧
        r1.data.countP Option.isSome = r.data.countP Option.isSome + (written es).length := by
  intro ops
  induction ops with
  | nil => intro r _ _; exact ⟨r, [], rfl, rfl, rfl, by simp [written]⟩
  | cons op ops ih =>
    intro r hm hops
    have hops1 : ∀ buf, Op.readVec buf ∉ ops :=
      fun buf h => hops buf (List.mem_cons_of_mem _ h)
    cases op with
    | write v =>
      obtain ⟨r1, ok, hrun, h1, h2, h3⟩ := Write_count hm v
      obtain ⟨r2, es, hrun2, h4, h5, h6⟩ := ih r1 (by omega) hops1
      refine ⟨r2, .write v ok :: es, run_cons_done (step_write_done hrun) hrun2, by omega,
        by omega, ?_⟩
      cases ok with
      | true => simp [written] at h3 ⊢; omega
      | false => simp [written] at h3 ⊢; omega
    | read =>
      obtain ⟨r1, v, ok, hrun, h1, h2⟩ := Read_count hm
      obtain ⟨r2, es, hrun2, h4, h5, h6⟩ := ih r1 (by rw [h1, h2]; exact hm) hops1
      refine ⟨r2, .read v ok :: es, run_cons_done (step_read_done hrun) hrun2, by omega,
        by rw [h5, h2], ?_⟩
      rw [h2] at h6
      cases ok with
      | true => simpa [written] using h6
      | false => simpa [written] using h6
    | readVec buf => exact absurd (List.mem_cons_self _ _) (hops buf)

/-- C17: for every capacity `c >= 1`, a power of two or not, and every sequence of
`Write` and `Read` calls (no `ReadVec`) on a buffer fresh from `NewRingBuffer(c)`,
every call returns and at most `c` of the `Write`s return true; once `c` of them
have (every slot has been written), every later `Write` returns false, whatever
`write - read` is. -/
theorem C17_at_most_cap_writes [Inhabited T] (c : Int) (hc : 1 ≤ c) (ops : List (Op T))
    (hops : ∀ buf, Op.readVec buf ∉ ops) :
    ∃ r es, runFresh c ops = .done (r, es) ∧ ((written es).length : Int) ≤ c ∧
      (((written es).length : Int) = c → ∀ v, r.Write v = .done (r, false)) := by
  have hn : ¬ c < 0 := by omega
  have h0 : (NewRingBuffer c : Outcome (RingBuffer T))
      = .done ⟨uint32 c, uint32 (c - 1), 0, 0, List.replicate c.toNat none⟩ := if_neg hn
  have hmask : uint32 (c - 1) < c.toNat := by unfold uint32; omega
  obtain ⟨r, es, hrun, h1, h2, h3⟩ := run_count ops
    (⟨uint32 c, uint32 (c - 1), 0, 0, List.replicate c.toNat none⟩ : RingBuffer T)
    (by simpa using hmask) hops
  have hz : (List.replicate c.toNat (none : Option T)).countP Option.isSome = 0 := by
    simp [List.countP_replicate]
  simp only [List.length_replicate] at h2
  rw [hz, Nat.zero_add] at h3
  have hle := List.countP_le_length (p := Option.isSome) (l := r.data)
  refine ⟨r, es, by rw [runFresh_done ops h0]; exact hrun, by omega, ?_⟩
  intro hfull v
  have hall : r.data.countP Option.isSome = r.data.length := by omega
  rw [List.countP_eq_length] at hall
  have hidx : add32 r.write 1 &&& r.mask < r.data.length := by
    have := @Nat.and_le_right (add32 r.write 1) r.mask
    simp only at h1
    omega
  have hs := hall _ (List.getElem_mem hidx)
  unfold RingBuffer.Write
  simp only [CompareAndSwapUint32, if_true]
  split
  · rfl
  · rw [List.getElem?_eq_getElem hidx]
    cases hv : r.data[add32 r.write 1 &&& r.mask] with
    | none => rw [hv] at hs; simp at hs
    | some x => rfl

/-- Witness of C17: capacity 4, `Write` x3, `Read`, `Write`, `Read`, `Write`; the last
`Write` returns false with `write - read = 2`. -/
theorem C17_at_most_cap_writes_witness :
    (1 : Int) ≤ 4 ∧
      (∀ buf, Op.readVec buf ∉
        [Op.write 1, .write 2, .write 3, .read, .write 4, .read, .write 5]) ∧
      runFresh 4 [Op.write 1, .write 2, .write 3, .read, .write 4, .read, .write 5]
        = .done (⟨4, 3, 4, 2, [some 4, some 1, some 2, some 3]⟩,
            [.write 1 true, .write 2 true, .write 3 true, .read 1 true, .write 4 true,
             .read 2 true, .write 5 false]) ∧
      ∃ r es, runFresh 4 [Op.write 1, .write 2, .write 3, .read, .write 4, .read, .write 5]
          = .done (r, es) ∧ ((written es).length : Int) ≤ 4 ∧
        (((written es).length : Int) = 4 → ∀ v, r.Write v = .done (r, false)) :=
  ⟨by decide, by simp, by decide, C17_at_most_cap_writes 4 (by decide) _ (by simp)⟩

/-! ## Cursors at the end of the `uint32` range -/

/-- C18, the code at the failing input: capacity 4, the write cursor has wrapped to
0 and the read cursor is `2^32 - 1`, so `write - read` is 1 on `uint32` and one
element is published in the slot of cursor 0; `isEmpty` returns true although
`write != read`, and `Read` and `ReadVec` hand nothing out. The state is the one a
`Write` makes from the drained buffer with both cursors at `2^32 - 1`. -/
theorem C18_isEmpty_after_wrap :
    sub32 0 4294967295 = 1 ∧
      run (⟨4, 3, 4294967295, 4294967295, [none, none, none, none]⟩ : RingBuffer Nat)
          [.write 7, .read]
        = .done (⟨4, 3, 0, 4294967295, [some 7, none, none, none]⟩,
            [.write 7 true, .read 0 false]) ∧
      (⟨4, 3, 0, 4294967295, [some 7, none, none, none]⟩ : RingBuffer Nat).isEmpty 0 4294967295
        = true ∧
      (⟨4, 3, 0, 4294967295, [some 7, none, none, none]⟩ : RingBuffer Nat).Read
        = .done (⟨4, 3, 0, 4294967295, [some 7, none, none, none]⟩, 0, false) ∧
      (⟨4, 3, 0, 4294967295, [some 7, none, none, none]⟩ : RingBuffer Nat).ReadVec [0, 0, 0]
        = .done (⟨4, 3, 0, 4294967295, [some 7, none, none, none]⟩, [0, 0, 0], 0) := by
  decide

/-- C19, the code at the failing input: capacity 4, `write = 2^32 - 1`,
`read = 2^32 - 3`, the slots of the cursors `2^32 - 2` and `2^32 - 1` hold 3 and 4,
the two other slots still hold 1 and 2 (handed out by `Read`, which does not empty
its slot). The test `cur <= oldWrite` is true for every `cur`, so the loop goes on
past the write cursor through the cursors 0 and 1: `ReadVec` returns 4, more than
`write - read = 2`, and stores the read cursor 1. The state is reached from the
drained buffer with both cursors at `2^32 - 5` by two `Write`s, two `Read`s and two
`Write`s; the values 1 and 2 are then handed out twice. -/
theorem C19_scan_past_write_cursor :
    sub32 4294967295 4294967293 = 2 ∧
      run (⟨4, 3, 4294967291, 4294967291, [none, none, none, none]⟩ : RingBuffer Nat)
          [.write 1, .write 2, .read, .read, .write 3, .write 4, .readVec [0, 0, 0, 0]]
        = .done (⟨4, 3, 4294967295, 1, [none, none, none, none]⟩,
            [.write 1 true, .write 2 true, .read 1 true, .read 2 true, .write 3 true,
             .write 4 true, .readVec [3, 4, 1, 2] 4]) ∧
      (⟨4, 3, 4294967295, 4294967293, [some 1, some 2, some 3, some 4]⟩ :
          RingBuffer Nat).ReadVec [0, 0, 0, 0]
        = .done (⟨4, 3, 4294967295, 1, [none, none, none, none]⟩, [3, 4, 1, 2], 4) := by
  decide

end RingBuf
